import Mathlib

/-!
Verification of the upload content-analysis pipeline of bookbotv2
(`app/services/metadata.py` and `app/services/auto_tags.py`).

Python strings are sequences of Unicode code points; they are embedded as
`List Nat` (`PyStr`).  Raw upload bytes are likewise embedded as `List Nat`.
Every definition below is a direct translation of the corresponding Python
function; deviations forced by the embedding are recorded in the doc comment
of the affected definition:

* Python's ordered trial-decoding chain (`utf-8-sig`, `utf-8`, `utf-16`, ...,
  `gb18030`, `gbk`, then `latin1` with replacement) lives in the CPython
  standard library, not in this repository.  The chain never fails (the final
  lossy decode is total), so `extractUploadMetadata` takes the resulting
  decoded text as an explicit total function argument `decodeChain`.
* `str.strip`, the regex class `\s`, `str.isspace` and `str.splitlines` use
  the Unicode whitespace / line-break sets, reproduced exactly in
  `pyIsSpace` / `isLineBreak` (verified against CPython).
* `str.lower` and `re.IGNORECASE` are embedded as ASCII case folding, which
  agrees with CPython on every character of the key alphabets involved.
* `str.isalnum` is embedded on the ASCII and CJK ranges (`pyIsAlnum`); only
  the word-count estimate depends on it and no claim constrains the exact
  alphabet.
* Two position computations in `auto_tags.py` go through Python floats
  (`int((n - segment_len) * (i / (segments - 1)))` and
  `int(m.start() / n * buckets)`).  They are embedded with exact integer
  division; for `segments = 5` the first is exact for any text below 2^51
  characters, and the second agrees with the float computation except when
  `6 * start / n` is within an ulp of an integer.  Every concrete input used
  in a proof below keeps a wide margin from those boundaries (checked
  against CPython), and the universally quantified theorems do not depend on
  the exact positions.
-/

set_option maxRecDepth 40000

namespace BookBot

/-- Python strings as lists of Unicode code points. -/
abbrev PyStr := List Nat

/-- View a Lean string literal as a `PyStr` (list of code points). -/
def pyOfString (s : String) : PyStr := s.data.map Char.toNat

/-- The exact CPython whitespace set: the characters stripped by `str.strip()`
and matched by the regex class `\s` (both use the same set). -/
def pyIsSpace (c : Nat) : Bool :=
  [0x9, 0xa, 0xb, 0xc, 0xd, 0x1c, 0x1d, 0x1e, 0x1f, 0x20, 0x85, 0xa0,
    0x1680, 0x2028, 0x2029, 0x202f, 0x205f, 0x3000].contains c
  || (0x2000 ≤ c && c ≤ 0x200a)

/-- Python `str.strip()`: remove leading and trailing whitespace. -/
def pyStrip (s : PyStr) : PyStr :=
  ((s.dropWhile pyIsSpace).reverse.dropWhile pyIsSpace).reverse

/-- First-occurrence deduplication, i.e. Python `list(dict.fromkeys(xs))`.
Written with an explicit `seen` accumulator so that it is structurally
recursive (and hence computable by the kernel). -/
def dedupFAux {α : Type} [DecidableEq α] (seen : List α) : List α → List α
  | [] => []
  | a :: l => if a ∈ seen then dedupFAux seen l else a :: dedupFAux (seen ++ [a]) l

/-- Python `list(dict.fromkeys(xs))`: keep the first occurrence of each
element, in order. -/
def dedupF {α : Type} [DecidableEq α] (l : List α) : List α := dedupFAux [] l

/-- Does `hay` start with `needle`? -/
def listStartsWith : PyStr → PyStr → Bool
  | [], _ => true
  | _ :: _, [] => false
  | a :: as, b :: bs => a == b && listStartsWith as bs

/-- Python substring test `needle in hay`. -/
def containsSub (needle : PyStr) : PyStr → Bool
  | [] => listStartsWith needle []
  | c :: rest => listStartsWith needle (c :: rest) || containsSub needle rest

/-- ASCII case folding; stands in for Python `str.lower` (agrees with CPython
on all key alphabets used by the pipeline). -/
def asciiLower (s : PyStr) : PyStr :=
  s.map (fun c => if 0x41 ≤ c && c ≤ 0x5a then c + 32 else c)

/-- CJK Unified Ideographs range U+4E00..U+9FFF used throughout the source. -/
def isCJK (c : Nat) : Bool := 0x4e00 ≤ c && c ≤ 0x9fff

namespace Metadata

/-- `_clean_value` of `metadata.py`: strip, remove U+200B / U+FEFF, strip. -/
def cleanValue (v : PyStr) : PyStr :=
  pyStrip ((pyStrip v).filter (fun c => c != 0x200b && c != 0xfeff))

/-- Opening brackets of the `_clean_title` tail regex `[\[\(（【]`. -/
def isOpenBr (c : Nat) : Bool := c == 0x5b || c == 0x28 || c == 0xff08 || c == 0x3010

/-- Closing brackets of the `_clean_title` tail regex `[\]\)）】]`. -/
def isCloseBr (c : Nat) : Bool := c == 0x5d || c == 0x29 || c == 0xff09 || c == 0x3011

/-- Leftmost index of an opening bracket whose continuation (`.*?` up to the
final closing bracket) contains no newline, mirroring how `re.sub` scans
start positions left to right and `.` refuses `\n`. -/
def findOpenAux : PyStr → Nat → Option Nat
  | [], _ => none
  | c :: rest, i =>
      if isOpenBr c && rest.all (fun d => d != 10) then some i
      else findOpenAux rest (i + 1)

/-- The substitution `re.sub(r"[\[\(（【].*?[\]\)）】]\s*$", "", v)` of
`_clean_title`, specialised to its call site: `v` is a `_clean_value` result,
hence end-stripped, so the `\s*$` tail forces the closing bracket to be the
last character. -/
def stripBracketTail (v : PyStr) : PyStr :=
  match v.getLast? with
  | some c =>
      if isCloseBr c then
        match findOpenAux v.dropLast 0 with
        | some i => v.take i
        | none => v
      else v
  | none => v

/-- The default title `"未知"`. -/
def unknownTitle : PyStr := pyOfString "未知"

/-- The default author `"Unknown"`. -/
def unknownAuthor : PyStr := pyOfString "Unknown"

/-- `_clean_title` of `metadata.py`. -/
def cleanTitle (v : PyStr) : PyStr :=
  if (pyStrip (stripBracketTail (cleanValue v))).isEmpty then unknownTitle
  else pyStrip (stripBracketTail (cleanValue v))

/-- The substitution `re.sub(r"^作者[:：]\s*", "", u)` of `_clean_author`
(anchored, hence at most one substitution). -/
def stripAuthorLabel (u : PyStr) : PyStr :=
  match u with
  | 0x4f5c :: 0x8005 :: c :: rest =>
      if c == 0x3a || c == 0xff1a then rest.dropWhile pyIsSpace else u
  | _ => u

/-- `_clean_author` of `metadata.py`: drop one leading `作者:`/`作者：` label,
then strip. -/
def cleanAuthor (v : PyStr) : PyStr :=
  if (cleanValue v).isEmpty then unknownAuthor
  else if (pyStrip (stripAuthorLabel (cleanValue v))).isEmpty then unknownAuthor
  else pyStrip (stripAuthorLabel (cleanValue v))

/-- `_normalize_tag` of `metadata.py`: clean, strip leading `#`, strip, then
delete every whitespace character (`re.sub(r"\s+", "", v)`). -/
def normalizeTag (v : PyStr) : PyStr :=
  (pyStrip ((cleanValue v).dropWhile (· == 35))).filter (fun c => !pyIsSpace c)

/-- The separator class `_RE_SEP = [|/、,，;；\t ]+` of `metadata.py`. -/
def isSepChar (c : Nat) : Bool :=
  [0x7c, 0x2f, 0x3001, 0x2c, 0xff0c, 0x3b, 0xff1b, 0x9, 0x20].contains c

/-- Split on runs of separator characters, keeping only non-empty parts:
`[p for p in _RE_SEP.split(raw) if p]`. -/
def splitSepAux (cur : PyStr) : PyStr → List PyStr
  | [] => if cur.isEmpty then [] else [cur.reverse]
  | c :: rest =>
      if isSepChar c then
        if cur.isEmpty then splitSepAux [] rest
        else cur.reverse :: splitSepAux [] rest
      else splitSepAux (c :: cur) rest

/-- `_split_tags` of `metadata.py`. -/
def splitTags (raw : PyStr) : List PyStr :=
  let r := cleanValue raw
  if r.isEmpty then []
  else
    let parts := splitSepAux [] r
    let tags := (parts.map normalizeTag).filter (fun t => !t.isEmpty)
    (dedupF tags).take 30

/-- Is the string free of `\n`?  (`.` in a Python regex refuses `\n`.) -/
def noNl (s : PyStr) : Bool := s.all (fun c => c != 10)

/-- Match of `(.+?)$` at a fixed start: the group must reach a `$` position
(end of string, or just before one final `\n`) without crossing a newline;
non-greedy, so the earlier end position wins. -/
def tailAuthorAt (s : PyStr) : Option PyStr :=
  match s.getLast? with
  | some 10 =>
      let body := s.dropLast
      if !body.isEmpty && noNl body then some body else none
  | some _ => if noNl s then some s else none
  | none => none

/-- Backtracking of the greedy `\s*` in `\s*(.+?)$`: try the maximal
whitespace run first, then shorter ones. -/
def tailAuthorGo (s : PyStr) : Nat → Option PyStr
  | 0 => tailAuthorAt s
  | j + 1 =>
      match tailAuthorAt (s.drop (j + 1)) with
      | some a => some a
      | none => tailAuthorGo s j

/-- Match of the tail `\s*(.+?)$` shared by both filename patterns, returning
the author group. -/
def tailAuthor (s : PyStr) : Option PyStr :=
  tailAuthorGo s (s.takeWhile pyIsSpace).length

/-- The separator class `[-_—–]` of `_RE_TITLE_AUTHOR_1`. -/
def sepChar1 (c : Nat) : Bool := c == 0x2d || c == 0x5f || c == 0x2014 || c == 0x2013

/-- Matcher for `^《(.+?)》\s*(.+?)$` after the opening `《`: grow the
non-greedy title one character at a time; at each size, if the next character
is `》` and the tail matches, that parse wins. -/
def re2Go (acc : PyStr) : PyStr → Option (PyStr × PyStr)
  | [] => none
  | c :: rest =>
      if c == 10 then none
      else
        match rest with
        | 0x300b :: r2 =>
            (match tailAuthor r2 with
             | some a => some (acc ++ [c], a)
             | none => re2Go (acc ++ [c]) rest)
        | _ => re2Go (acc ++ [c]) rest

/-- `_RE_TITLE_AUTHOR_2.match`, i.e. `^《(.+?)》\s*(.+?)$`. -/
def matchTitleAuthor2 (base : PyStr) : Option (PyStr × PyStr) :=
  match base with
  | 0x300a :: rest => re2Go [] rest
  | _ => none

/-- Matcher for `^(.+?)\s*[-_—–]\s*(.+?)$`: grow the non-greedy title; after
it the greedy `\s*` is deterministic (a shorter run would place a whitespace
character where the separator must match). -/
def re1Go (acc : PyStr) : PyStr → Option (PyStr × PyStr)
  | [] => none
  | c :: rest =>
      if c == 10 then none
      else
        match rest.dropWhile pyIsSpace with
        | s :: r3 =>
            if sepChar1 s then
              match tailAuthor r3 with
              | some a => some (acc ++ [c], a)
              | none => re1Go (acc ++ [c]) rest
            else re1Go (acc ++ [c]) rest
        | [] => re1Go (acc ++ [c]) rest

/-- `_RE_TITLE_AUTHOR_1.match`, i.e. `^(.+?)\s*[-_—–]\s*(.+?)$`. -/
def matchTitleAuthor1 (base : PyStr) : Option (PyStr × PyStr) := re1Go [] base

/-- Python `base.rsplit(".", 1)[0]`: everything before the last dot. -/
def takeBeforeLastDot (s : PyStr) : PyStr :=
  ((s.reverse.dropWhile (· != 46)).drop 1).reverse

/-- `parse_title_author_from_filename` of `metadata.py`. -/
def parseTitleAuthorFromFilename (fileName : PyStr) : PyStr × PyStr :=
  let b0 := cleanValue fileName
  let b1 := if b0.contains 46 then takeBeforeLastDot b0 else b0
  let base := cleanValue b1
  match matchTitleAuthor2 base with
  | some (t, a) => (cleanTitle t, cleanAuthor a)
  | none =>
      match matchTitleAuthor1 base with
      | some (t, a) => (cleanTitle t, cleanAuthor a)
      | none => (cleanTitle base, unknownAuthor)

/-- ASCII letters and digits; stands in for Python `str.isalnum`, which only
the coarse word-count estimate consumes (no claim depends on the exact
alphabet beyond ASCII and the separately tested CJK range). -/
def pyIsAlnum (c : Nat) : Bool :=
  (0x30 ≤ c && c ≤ 0x39) || (0x41 ≤ c && c ≤ 0x5a) || (0x61 ≤ c && c ≤ 0x7a)

/-- `_count_word_like` of `metadata.py`. -/
def countWordLike (text : PyStr) : Nat :=
  text.foldl (fun n c =>
    if pyIsSpace c then n
    else if pyIsAlnum c || isCJK c then n + 1 else n) 0

/-- The CPython `str.splitlines` line-break set (besides `\r\n`). -/
def isLineBreak (c : Nat) : Bool :=
  [0xa, 0xb, 0xc, 0xd, 0x1c, 0x1d, 0x1e, 0x85, 0x2028, 0x2029].contains c

/-- Worker for `str.splitlines`; `\r\n` counts as a single break. -/
def splitlinesAux (cur : PyStr) : PyStr → List PyStr
  | [] => if cur.isEmpty then [] else [cur.reverse]
  | 0xd :: 0xa :: rest => cur.reverse :: splitlinesAux [] rest
  | c :: rest =>
      if isLineBreak c then cur.reverse :: splitlinesAux [] rest
      else splitlinesAux (c :: cur) rest

/-- Python `str.splitlines()`. -/
def pySplitlines (s : PyStr) : List PyStr := splitlinesAux [] s

/-- The bullet class `[-*•]` of `_RE_FIELD`. -/
def isBulletChar (c : Nat) : Bool := c == 0x2d || c == 0x2a || c == 0x2022

/-- Match `\s*[:：]` and return the remainder after the colon. -/
def wsColon (s : PyStr) : Option PyStr :=
  match s.dropWhile pyIsSpace with
  | c :: r => if c == 0x3a || c == 0xff1a then some r else none
  | [] => none

/-- Match `(?:】|\])?\s*[:：]` after a key: the optional closing bracket is
tried greedily, falling back to the bracket-free parse. -/
def afterKey (s : PyStr) : Option PyStr :=
  match s with
  | c :: r =>
      if c == 0x3011 || c == 0x5d then
        match wsColon r with
        | some rest => some rest
        | none => wsColon s
      else wsColon s
  | [] => wsColon s

/-- The `_RE_FIELD_KEYS` alternation of `metadata.py`, in source order (the
regex engine tries alternatives left to right). -/
def fieldKeys : List PyStr :=
  ["书名", "作者", "标签", "分类", "主角", "人物", "角色", "关键字", "关键词",
    "题材", "类型", "简介", "title", "author", "tag", "tags", "category",
    "description"].map pyOfString

/-- Try the key alternatives in order; a key matches case-insensitively and
its continuation (optional closing bracket, `\s*`, colon) must succeed,
otherwise the engine moves to the next alternative.  Returns the lowered key
(`m.group("k").strip().lower()`; the strip is vacuous, keys contain no
whitespace) and the remainder after the colon. -/
def tryKeys : List PyStr → PyStr → Option (PyStr × PyStr)
  | [], _ => none
  | k :: ks, s =>
      if asciiLower (s.take k.length) == asciiLower k then
        match afterKey (s.drop k.length) with
        | some rest => some (asciiLower k, rest)
        | none => tryKeys ks s
      else tryKeys ks s

/-- `_RE_FIELD.match` on one (already line-break-free) line, producing the
lowered key and the cleaned value.  The leading `\s*`, the optional greedy
bullet run and the optional opening bracket are deterministic: no key starts
with a whitespace, bullet or bracket character, so regex backtracking cannot
produce a different parse.  The value group `\s*(?P<v>.*?)\s*$` is the
remainder after the colon with surrounding whitespace stripped, to which the
source applies `_clean_value`. -/
def parseFieldLine (ln : PyStr) : Option (PyStr × PyStr) :=
  let s1 := ln.dropWhile pyIsSpace
  let s2 := match s1 with
    | c :: _ =>
        if isBulletChar c then (s1.dropWhile isBulletChar).dropWhile pyIsSpace
        else s1
    | [] => s1
  let s3 := match s2 with
    | c :: r => if c == 0x3010 || c == 0x5b then r else s2
    | [] => s2
  match tryKeys fieldKeys s3 with
  | some (k, rest) => some (k, cleanValue (pyStrip rest))
  | none => none

/-- The title aliases `{书名, title}` (lowered). -/
def titleKeys : List PyStr := ["书名", "title"].map pyOfString

/-- The author aliases `{作者, author}` (lowered). -/
def authorKeys : List PyStr := ["作者", "author"].map pyOfString

/-- The tag-like aliases of `_extract_txt_front_matter` (lowered). -/
def tagFieldKeys : List PyStr :=
  ["标签", "分类", "主角", "人物", "角色", "关键字", "关键词", "题材", "类型",
    "tag", "tags", "category"].map pyOfString

/-- The description aliases `{简介, description}` (lowered). -/
def descFieldKeys : List PyStr := ["简介", "description"].map pyOfString

/-- The `out` dictionary built by `_extract_txt_front_matter`: key presence
is modelled by `Option`. -/
structure FrontMatter where
  title? : Option PyStr := none
  author? : Option PyStr := none
  descr? : Option PyStr := none
  tags : List PyStr := []
deriving DecidableEq

/-- One iteration of the `for ln in lines` loop of
`_extract_txt_front_matter`: title/author/description are set only when
absent (first match wins), tag-like keys always extend the accumulator. -/
def fmStep (fm : FrontMatter) (ln : PyStr) : FrontMatter :=
  match parseFieldLine ln with
  | none => fm
  | some (k, v) =>
      if titleKeys.contains k && fm.title?.isNone then
        { fm with title? := some (cleanTitle v) }
      else if authorKeys.contains k && fm.author?.isNone then
        { fm with author? := some (cleanAuthor v) }
      else if tagFieldKeys.contains k then
        { fm with tags := fm.tags ++ splitTags v }
      else if descFieldKeys.contains k && fm.descr?.isNone then
        { fm with descr? := some (v.take 800) }
      else fm

/-- The line preparation of `_extract_txt_front_matter`: first 1200 raw
lines, stripped, blank lines dropped, then capped at 400. -/
def prepLines (text : PyStr) : List PyStr :=
  ((((pySplitlines text).take 1200).map pyStrip).filter (fun l => !l.isEmpty)).take 400

/-- `_extract_txt_front_matter` of `metadata.py`. -/
def extractTxtFrontMatter (text : PyStr) : FrontMatter :=
  let fm := (prepLines text).foldl fmStep {}
  { fm with tags := (dedupF (fm.tags.filter (fun t => !t.isEmpty))).take 30 }

/-- The `UploadMetadata` dataclass. -/
structure UploadMetadata where
  title : PyStr
  author : PyStr
  tags : List PyStr
  wordCount : Nat
  description : Option PyStr
deriving DecidableEq

/-- Python `x or fallback` for an optional string field of the front-matter
dictionary: an absent key or an empty (falsy) string yields the fallback. -/
def pyOrStr (v : Option PyStr) (fallback : PyStr) : PyStr :=
  match v with
  | some t => if t.isEmpty then fallback else t
  | none => fallback

/-- The final tag normalization of `extract_upload_metadata`:
`[t for t in (_normalize_tag(x) for x in tags) if t]`, first-occurrence
dedup, cap 30. -/
def finalizeTags (tags : List PyStr) : List PyStr :=
  (dedupF ((tags.map normalizeTag).filter (fun t => !t.isEmpty))).take 30

/-- The local state (title, author, tags, word_count, description) of
`extract_upload_metadata` just before its final normalization pass. -/
structure RawExtract where
  title : PyStr
  author : PyStr
  tags : List PyStr
  wordCount : Nat
  description : Option PyStr
deriving DecidableEq

/-- The branching part of `extract_upload_metadata`: the filename parse
gives the baseline, and the `txt`-and-non-empty branch decodes the bytes and
overrides from the front matter.  `decodeChain` stands for the
standard-library trial-decoding chain (see the file header); it is consulted
only inside that branch, exactly as in the source. -/
def extractRaw (fileName fileExt : PyStr) (fileBytes : List Nat)
    (decodeChain : List Nat → PyStr) : RawExtract :=
  let p := parseTitleAuthorFromFilename fileName
  if asciiLower fileExt == pyOfString "txt" && !fileBytes.isEmpty then
    let text := decodeChain fileBytes
    let fm := extractTxtFrontMatter text
    { title := pyOrStr fm.title? p.1,
      author := pyOrStr fm.author? p.2,
      tags := if fm.tags.isEmpty then [] else fm.tags,
      wordCount := countWordLike text,
      description := match fm.descr? with
        | some d => if d.isEmpty then none else some d
        | none => none }
  else
    { title := p.1, author := p.2, tags := [], wordCount := 0, description := none }

/-- `extract_upload_metadata` of `metadata.py`: the branching part followed
by the final `_clean_title` / `_clean_author` / tag-normalization pass
(which the source applies on every path). -/
def extractUploadMetadata (fileName fileExt : PyStr) (fileBytes : List Nat)
    (decodeChain : List Nat → PyStr) : UploadMetadata :=
  let r := extractRaw fileName fileExt fileBytes decodeChain
  { title := cleanTitle r.title, author := cleanAuthor r.author,
    tags := finalizeTags r.tags, wordCount := r.wordCount,
    description := r.description }

end Metadata

section MetadataSanity

/-- Sanity check mirroring `test_parse_title_author_from_filename_dash`. -/
example :
    Metadata.parseTitleAuthorFromFilename (pyOfString "剑来 - 烽火戏诸侯.txt")
      = (pyOfString "剑来", pyOfString "烽火戏诸侯") := by decide

/-- Sanity check: `《Title》Author` form. -/
example :
    Metadata.parseTitleAuthorFromFilename (pyOfString "《梦》mirr.txt")
      = (pyOfString "梦", pyOfString "mirr") := by decide

/-- Sanity check mirroring part of
`test_extract_upload_metadata_txt_front_matter` (`decodeChain` is the
identity on the already-decoded code points, as the UTF-8 decode of this
pure-BMP text). -/
example :
    Metadata.extractUploadMetadata (pyOfString "梦莉小说合集.txt")
      (pyOfString "txt")
      (pyOfString "书名: 梦莉小说合集\n作者: mirr\n标签: 校园, 纯爱 #甜文\n简介: 这是简介\n\n正文开始\n")
      (fun b => b)
      = { title := pyOfString "梦莉小说合集", author := pyOfString "mirr",
          tags := [pyOfString "校园", pyOfString "纯爱", pyOfString "甜文"],
          wordCount := 32, description := some (pyOfString "这是简介") } := by decide

/-- Sanity check mirroring
`test_extract_upload_metadata_supports_bracketed_and_bulleted_fields`. -/
example :
    (Metadata.extractUploadMetadata (pyOfString "武道无穷.txt")
      (pyOfString "txt")
      (pyOfString "【书名】：武道无穷，吾身无拘\n- 【作者】：猴子\n• 标签：玄幻、热血\n正文...\n")
      (fun b => b)).tags = [pyOfString "玄幻", pyOfString "热血"] := by decide

end MetadataSanity

namespace AutoTags

/-- `_normalize_tag` of `auto_tags.py`: strip, remove leading `#`, delete all
whitespace, delete straight and curly quotes, cap at 20 characters. -/
def isQuoteChar (c : Nat) : Bool := [0x22, 0x27, 0x201c, 0x201d, 0x2018, 0x2019].contains c

/-- `_normalize_tag` of `auto_tags.py` (distinct from the metadata one: strip
happens before the `#`-strip, quotes are removed, and the result is capped at
20 characters). -/
def normalizeTag (t : PyStr) : PyStr :=
  ((((pyStrip t).dropWhile (· == 35)).filter (fun c => !pyIsSpace c)).filter
    (fun c => !isQuoteChar c)).take 20

/-- The `_STOPWORDS_CJK` set of `auto_tags.py`, transcribed in source order
(the source is a Python set literal, so the duplicates it contains collapse;
membership is unaffected). -/
def stopwordStrs : List String :=
  ["我们", "你们", "他们", "她们", "它们", "自己", "这个", "那个", "这些", "那些",
   "什么", "怎么", "为什么", "不是", "所以", "因为", "但是", "然后", "如果", "这样",
   "那样", "还有", "已经", "可以", "不会", "不要", "没有", "时候", "现在", "刚才",
   "一下", "一个", "两个", "三个", "一些", "这里", "那里", "如何", "而且", "而是",
   "于是", "而后", "之后", "之前", "之中", "之内", "之上", "之下", "一种", "一样",
   "一般", "一直", "还是", "只是", "其实", "终于", "同时", "不过", "当然", "毕竟",
   "从而", "因为", "所以", "第章", "第一章", "第二章", "第三章", "第四章", "第五章",
   "第六章", "第七章", "第八章", "第九章", "第十章", "正文", "目录", "作者", "书名",
   "简介", "标签", "分类", "主角", "人物", "角色", "关键字", "关键词", "小说", "章节",
   "更新", "发布", "阅读", "完结", "开始", "结束", "说道", "问道", "笑道", "看着",
   "看了", "看见", "感觉", "突然", "继续", "同时", "之后", "之前", "发现", "时候",
   "看到", "知道", "听到", "看向", "说道", "什么", "怎么", "如果", "然后", "无关",
   "内容"]

/-- `_STOPWORDS_CJK` as code-point strings. -/
def stopwordsCJK : List PyStr := stopwordStrs.map pyOfString

/-- `_SINGLE_CHAR_WHITELIST = {"爽", "虐", "燃"}`. -/
def singleCharWhitelist : List PyStr := ["爽", "虐", "燃"].map pyOfString

/-- ASCII digits; stands in for Python `str.isdigit`.  `_is_noise_token` is
only ever applied to pure-CJK tokens, on which both sides are false, so the
restriction to ASCII digits is invisible to the pipeline. -/
def isDigitChar (c : Nat) : Bool := 0x30 ≤ c && c ≤ 0x39

/-- `len(set(t)) == 1`: the non-empty string is one repeated character. -/
def allSameChar : PyStr → Bool
  | [] => false
  | c :: rest => rest.all (· == c)

/-- `_is_noise_token` of `auto_tags.py`. -/
def isNoiseToken (t : PyStr) : Bool :=
  if t.isEmpty then true
  else if t.any isDigitChar then true
  else if allSameChar t then true
  else if stopwordsCJK.contains t then true
  else if t.head? == some 0x7b2c && t.getLast? == some 0x7ae0 then true
  else if t.head? == some 0x7b2c && t.getLast? == some 0x8282 then true
  else if t.length == 1 && !singleCharWhitelist.contains t then true
  else false

/-- State of the left-to-right scanner that reproduces non-overlapping greedy
matching of `[一-鿿]{lo,hi}`: position of the next character, start
and content of the pending (unfinished) CJK chunk, and the emitted matches. -/
structure ScanState where
  pos : Nat := 0
  pendStart : Nat := 0
  pend : PyStr := []
  acc : List (Nat × PyStr) := []
deriving DecidableEq

/-- One scanner step.  Greedy matching chops a maximal CJK run into chunks of
`hi` characters; a final partial chunk is a match only if it has at least
`lo` characters (callers use `lo ≥ 1`). -/
def cjkStep (hi lo : Nat) (st : ScanState) (c : Nat) : ScanState :=
  if isCJK c then
    let start := if st.pend.isEmpty then st.pos else st.pendStart
    let pend := st.pend ++ [c]
    if pend.length = hi then
      { pos := st.pos + 1, pendStart := 0, pend := [],
        acc := st.acc ++ [(start, pend)] }
    else
      { pos := st.pos + 1, pendStart := start, pend := pend, acc := st.acc }
  else
    if lo ≤ st.pend.length then
      { pos := st.pos + 1, pendStart := 0, pend := [],
        acc := st.acc ++ [(st.pendStart, st.pend)] }
    else
      { pos := st.pos + 1, pendStart := 0, pend := [], acc := st.acc }

/-- All matches `(start, token)` of `[一-鿿]{lo,hi}` in `text`, in
order — `re.finditer` semantics. -/
def cjkScan (hi lo : Nat) (text : PyStr) : List (Nat × PyStr) :=
  let st := text.foldl (cjkStep hi lo) {}
  if lo ≤ st.pend.length ∧ !st.pend.isEmpty then st.acc ++ [(st.pendStart, st.pend)]
  else st.acc

/-- `_tokenize_cjk` of `auto_tags.py`: `_RE_CJK.findall`, runs of 2–6. -/
def tokenizeCJK (text : PyStr) : List PyStr := (cjkScan 6 2 text).map (·.2)

/-- `sample_segments` of `auto_tags.py`.  `segment_len` and `segments` are
Python ints, embedded as `Nat`: the `segment_len <= 0` guard becomes
`= 0` and the `max(0, ·)` clamp on positions is vacuous.  The source
computes each raw position as `int((n - segment_len) * (i / (segments - 1)))`
through floats; this is embedded as exact integer division (see the file
header). -/
def sampleSegments (text : PyStr) (segmentLen : Nat) (segments : Nat) : List PyStr :=
  if segmentLen = 0 || text.isEmpty then []
  else
    let n := text.length
    if n ≤ segmentLen then [text]
    else
      let positions :=
        if segments ≤ 1 then [0]
        else (List.range segments).map (fun i =>
          min (n - segmentLen) ((n - segmentLen) * i / (segments - 1)))
      (dedupF positions).map (fun pos => (text.drop pos).take segmentLen)

/-- The `seg_len` derivation inside `sample_text` (line
`seg_len = max(10_000, available // max(1, segments))`), as a function of the
already-stripped title. -/
def sampleTextSegLen (strippedTitle : PyStr) (budget segments : Nat) : Nat :=
  let overhead := if !strippedTitle.isEmpty then strippedTitle.length + 1 else 0
  let available := budget - overhead
  max 10000 (available / max 1 segments)

/-- `sample_text` of `auto_tags.py`.  `budget` is a Python int embedded as
`Nat` (`budget <= 0` becomes `= 0`; every caller passes 200000). -/
def sampleText (title text : PyStr) (budget segments : Nat) : PyStr :=
  let t := pyStrip title
  if budget = 0 then t
  else if text.isEmpty then t
  else
    let overhead := if !t.isEmpty then t.length + 1 else 0
    let available := budget - overhead
    if text.length ≤ available then (if !t.isEmpty then t ++ 10 :: text else text)
    else
      let segLen := sampleTextSegLen t budget segments
      let segs := sampleSegments text segLen segments
      if !t.isEmpty then t ++ 10 :: List.intercalate [10] segs
      else List.intercalate [10] segs

/-- The sampling parameters `(seg_len, segments)` that `generate_tags`
derives for the keyword extractor's per-segment pass (lines
`overhead = ...; available = ...; seg_len = max(10_000, available // 5) if
available else 10_000; segments = sample_segments(text=text,
segment_len=seg_len, segments=5)`). -/
def generateTagsSampling (title : PyStr) : Nat × Nat :=
  let t := pyStrip title
  let overhead := if !t.isEmpty then t.length + 1 else 0
  let available := 200000 - overhead
  (if available ≠ 0 then max 10000 (available / 5) else 10000, 5)

/-- The sampling parameters `(seg_len, segments)` that `sample_text` derives
internally for the classifier text when called on a raw title. -/
def sampleTextSampling (title : PyStr) (budget segments : Nat) : Nat × Nat :=
  (sampleTextSegLen (pyStrip title) budget segments, segments)

/-- The `add` closure of `_title_keywords`: skip noise tokens, append
first occurrences at the end. -/
def addTok (out : List PyStr) (t : PyStr) : List PyStr :=
  if isNoiseToken t then out
  else if out.contains t then out
  else out ++ [t]

/-- The token loop of `_title_keywords`: short tokens are added whole; for
tokens of length ≥ 5 every window of size 4, 3, 2 that occurs in `text` is
added; the first ten collected tags are kept. -/
def titleKeywordsCore (toks : List PyStr) (text : PyStr) : List PyStr :=
  (toks.foldl (fun out t =>
    if t.isEmpty then out
    else if t.length ≤ 4 then addTok out t
    else
      [4, 3, 2].foldl (fun outk k =>
        (List.range (t.length - k + 1)).foldl (fun outi i =>
          let sub := (t.drop i).take k
          if sub.length < 2 then outi
          else if !text.isEmpty && !containsSub sub text then outi
          else addTok outi sub) outk) out) []).take 10

/-- `_title_keywords` of `auto_tags.py`. -/
def titleKeywords (title text : PyStr) : List PyStr :=
  let t := pyStrip title
  if t.isEmpty then []
  else titleKeywordsCore ((tokenizeCJK t).map normalizeTag) text

/-- The title tags passed to the tag merger by `generate_tags`:
`_title_keywords(title, src)` with `src = sample_text(title=title,
text=text, budget=200_000, segments=5)` and `title` stripped at the top of
`generate_tags`. -/
def titleTagsOf (title text : PyStr) : List PyStr :=
  titleKeywords (pyStrip title) (sampleText (pyStrip title) text 200000 5)

/-- The positional bucket `int(m.start() / n * buckets)` (with `buckets = 6`
and the `b >= buckets` clamp) of the character-name detector, embedded with
exact integer arithmetic (see the file header for the float discussion). -/
def bucketOf (n start : Nat) : Nat := min 5 (start * 6 / n)

/-- `name_counter[t] += 1` on an insertion-ordered association list —
CPython `Counter`/`dict` iteration order is insertion order. -/
def bumpCounter : List (PyStr × Nat) → PyStr → List (PyStr × Nat)
  | [], t => [(t, 1)]
  | (u, c) :: rest, t =>
      if u == t then (u, c + 1) :: rest else (u, c) :: bumpCounter rest t

/-- `name_mask[t] = name_mask.get(t, 0) | (1 << b)` on an insertion-ordered
association list. -/
def setMaskBit : List (PyStr × Nat) → PyStr → Nat → List (PyStr × Nat)
  | [], t, b => [(t, 0 ||| (1 <<< b))]
  | (u, m) :: rest, t, b =>
      if u == t then (u, m ||| (1 <<< b)) :: rest else (u, m) :: setMaskBit rest t b

/-- `d.get(k, default)` on an association list. -/
def lookupD (l : List (PyStr × Nat)) (t : PyStr) (d : Nat) : Nat :=
  match l.find? (fun p => p.1 == t) with
  | some p => p.2
  | none => d

/-- The `name_counter` / `name_mask` state of the character-name detector. -/
structure NameState where
  counter : List (PyStr × Nat) := []
  mask : List (PyStr × Nat) := []
deriving DecidableEq

/-- One iteration of the `for m in _RE_CJK_1.finditer(text)` loop of
`generate_tags` (`n` is `len(text) or 1`). -/
def nameStep (title : PyStr) (n : Nat) (st : NameState) (m : Nat × PyStr) : NameState :=
  let t := normalizeTag m.2
  if !(t.length == 2 || t.length == 3) then st
  else if isNoiseToken t then st
  else if !title.isEmpty && containsSub t title then st
  else { counter := bumpCounter st.counter t,
         mask := setMaskBit st.mask t (bucketOf n m.1) }

/-- The full counting pass of the character-name detector over the unsampled
text. -/
def nameScan (title text : PyStr) : NameState :=
  (cjkScan 4 1 text).foldl (nameStep title (max 1 text.length)) {}

/-- `int.bit_count`, by structural recursion on a fuel argument (`n` halves
each step, so `n` itself is enough fuel). -/
def popCountFuel : Nat → Nat → Nat
  | 0, _ => 0
  | f + 1, n => if n = 0 then 0 else n % 2 + popCountFuel f (n / 2)

/-- `int.bit_count` (the source's `mask.bit_count()` / `bin(mask).count("1")`
fallback compute the same number). -/
def popCount (n : Nat) : Nat := popCountFuel n n

/-- The qualification loop of the character-name detector, keeping
`(bucket_count, occurrence_count, token)` for every token with
`bc >= 2 and c >= 6`, in counter (= insertion) order. -/
def nameStats (title text : PyStr) : List (Nat × Nat × PyStr) :=
  let st := nameScan title text
  st.counter.filterMap (fun p =>
    let bc := popCount (lookupD st.mask p.1 0)
    if 2 ≤ bc && 6 ≤ p.2 then some (bc, p.2, p.1) else none)

/-- `name_candidates`: the source appends the packed tuples
`(bc * 100000 + c, t)`; this is `nameStats` with the first two components
packed. -/
def nameCandidates (title text : PyStr) : List (Nat × PyStr) :=
  (nameStats title text).map (fun e => (e.1 * 100000 + e.2.1, e.2.2))

/-- Python string `<`: lexicographic comparison by code point. -/
def pyStrLt : PyStr → PyStr → Bool
  | [], [] => false
  | [], _ :: _ => true
  | _ :: _, [] => false
  | a :: as, b :: bs => if a < b then true else if b < a then false else pyStrLt as bs

/-- The descending tuple order used by `name_candidates.sort(reverse=True)`:
larger packed key first, ties by the larger token string first. -/
def candGe (x y : Nat × PyStr) : Prop :=
  y.1 < x.1 ∨ (x.1 = y.1 ∧ pyStrLt x.2 y.2 = false)

instance : DecidableRel candGe := fun x y =>
  inferInstanceAs (Decidable (y.1 < x.1 ∨ (x.1 = y.1 ∧ pyStrLt x.2 y.2 = false)))

/-- `name_candidates.sort(reverse=True)` followed by nothing: CPython sorts
tuples in descending lexicographic order; the entries carry pairwise distinct
tokens (keys of one `Counter`), so the descending order is strict and any
comparison sort produces the same list — embedded as an insertion sort. -/
def nameRanked (title text : PyStr) : List (Nat × PyStr) :=
  List.insertionSort candGe (nameCandidates title text)

/-- `name_tags = [t for _, t in name_candidates[:8]]` after the sort. -/
def nameTags (title text : PyStr) : List PyStr :=
  ((nameRanked title text).take 8).map (·.2)

end AutoTags

section AutoTagsSanity

/-- Sanity check (verified against CPython): five evenly spaced segments. -/
example :
    AutoTags.sampleSegments (pyOfString "abcdefghijklmnopqrstuvwxyz") 10 5
      = [pyOfString "abcdefghij", pyOfString "efghijklmn", pyOfString "ijklmnopqr",
          pyOfString "mnopqrstuv", pyOfString "qrstuvwxyz"] := by decide

/-- Sanity check (verified against CPython): text fits the budget. -/
example :
    AutoTags.sampleText (pyOfString " 剑来 ") (pyOfString "abcdef") 9 5
      = pyOfString "剑来\nabcdef" := by decide

/-- Sanity check (verified against CPython): over budget, minimum segment
length takes over and the whole short text comes back as one segment. -/
example :
    AutoTags.sampleText (pyOfString "剑来") (pyOfString "abcdefgh") 5 5
      = pyOfString "剑来\nabcdefgh" := by decide

/-- Sanity check (verified against CPython): windows of a long title token
restricted to those occurring in the body. -/
example :
    AutoTags.titleKeywords (pyOfString "我的美丽人生路")
        (pyOfString "正文 美丽人生 人生路漫漫")
      = [pyOfString "美丽人生", pyOfString "美丽人", pyOfString "丽人生",
          pyOfString "美丽", pyOfString "丽人", pyOfString "人生"] := by decide

/-- Sanity check (verified against CPython): two name candidates with equal
packed keys are tie-broken by the descending string order. -/
example :
    AutoTags.nameTags [] (pyOfString "月石.月石.月石.月石.月石.月石.山水.山水.山水.山水.山水.山水.")
      = [pyOfString "月石", pyOfString "山水"] := by decide

end AutoTagsSanity

/-- The per-tag shape invariant (without any length cap): non-empty, no
leading `#`, no whitespace character anywhere. -/
def tagShapeOk (t : PyStr) : Bool :=
  !t.isEmpty && t.head? != some 35 && t.all (fun c => !pyIsSpace c)

namespace Metadata

/-- The parsed `(lowered key, cleaned value)` records of the prepared
front-matter lines, in order. -/
def fmRecords (text : PyStr) : List (PyStr × PyStr) :=
  (prepLines text).filterMap parseFieldLine

/-- Modelled from the spec side of the first-match-wins clause: the value of
the first record whose key belongs to `keys`. -/
def firstField (keys : List PyStr) (rs : List (PyStr × PyStr)) : Option PyStr :=
  (rs.find? (fun r => keys.contains r.1)).map (·.2)

/-- Modelled from the spec side of the accumulation clause: the split,
normalized tokens of every tag-keyed record, concatenated in order. -/
def accumTags (rs : List (PyStr × PyStr)) : List PyStr :=
  (rs.filter (fun r => tagFieldKeys.contains r.1)).flatMap (fun r => splitTags r.2)

end Metadata

namespace AutoTags

/-- Descending lexicographic order on `(bucket_count, occurrence_count)`
read off a packed candidate key `bc * 100000 + c` (faithful whenever
`c < 100000`). -/
def lexGeBC (x y : Nat × PyStr) : Prop :=
  y.1 / 100000 < x.1 / 100000 ∨
    (x.1 / 100000 = y.1 / 100000 ∧ y.1 % 100000 ≤ x.1 % 100000)

/-- Token `"月石"` of the large name-detector input. -/
def tokA : PyStr := pyOfString "月石"

/-- Token `"山水"` of the large name-detector input. -/
def tokB : PyStr := pyOfString "山水"

/-- One `"月石."` block (the dot separates consecutive CJK runs). -/
def ablock : PyStr := tokA ++ [46]

/-- One `"山水."` block. -/
def bblock : PyStr := tokB ++ [46]

/-- `k` copies of a block. -/
def repBlock (k : Nat) (b : PyStr) : PyStr := (List.replicate k b).flatten

/-- `m` dots of CJK-free filler. -/
def fillerDots (m : Nat) : PyStr := List.replicate m 46

/-- A 900100-character document: `"月石"` occurs 100007 times, all inside
the first two positional buckets, and `"山水"` occurs twice in each of
buckets 3, 4 and 5.  (`"月石"` starts at 0, 3, ..., 300018; `"山水"` starts
at 450050, 450053, 600070, 600073, 750090, 750093.) -/
def bigText : PyStr :=
  repBlock 100007 ablock ++ fillerDots 150029 ++ bblock ++ bblock
    ++ fillerDots 150014 ++ bblock ++ bblock ++ fillerDots 150014
    ++ bblock ++ bblock ++ fillerDots 150004

end AutoTags

/-! ### Helper lemmas about the string primitives -/

theorem dropWhile_eq_self_of {p : Nat → Bool} {s : PyStr}
    (h : ∀ c ∈ s, p c = false) : s.dropWhile p = s := by
  cases s with
  | nil => rfl
  | cons c r => simp [List.dropWhile_cons, h c (by simp)]

theorem mem_of_dropWhile {p : Nat → Bool} {a : Nat} {s : PyStr}
    (h : a ∈ s.dropWhile p) : a ∈ s :=
  (List.dropWhile_sublist p).mem h

theorem mem_pyStrip {a : Nat} {s : PyStr} (h : a ∈ pyStrip s) : a ∈ s := by
  unfold pyStrip at h
  rw [List.mem_reverse] at h
  have h2 := mem_of_dropWhile h
  rw [List.mem_reverse] at h2
  exact mem_of_dropWhile h2

theorem pyStrip_eq_self {s : PyStr} (h : ∀ c ∈ s, pyIsSpace c = false) :
    pyStrip s = s := by
  unfold pyStrip
  rw [dropWhile_eq_self_of h]
  rw [dropWhile_eq_self_of (fun c hc => h c (List.mem_reverse.mp hc))]
  exact List.reverse_reverse s

theorem pyStrip_length_le (s : PyStr) : (pyStrip s).length ≤ s.length := by
  unfold pyStrip
  calc ((s.dropWhile pyIsSpace).reverse.dropWhile pyIsSpace).reverse.length
      = ((s.dropWhile pyIsSpace).reverse.dropWhile pyIsSpace).length := by
        rw [List.length_reverse]
    _ ≤ (s.dropWhile pyIsSpace).reverse.length :=
        (List.dropWhile_sublist pyIsSpace).length_le
    _ = (s.dropWhile pyIsSpace).length := by rw [List.length_reverse]
    _ ≤ s.length := (List.dropWhile_sublist pyIsSpace).length_le

/-! ### C3: idempotence of the two tag normalizers -/

theorem mNorm_no_space {x : PyStr} : ∀ c ∈ Metadata.normalizeTag x, pyIsSpace c = false := by
  intro c hc
  unfold Metadata.normalizeTag at hc
  simpa using (List.mem_filter.mp hc).2

theorem mNorm_no_zw {x : PyStr} : ∀ c ∈ Metadata.normalizeTag x, c ≠ 0x200b ∧ c ≠ 0xfeff := by
  intro c hc
  unfold Metadata.normalizeTag at hc
  have h1 : c ∈ Metadata.cleanValue x :=
    mem_of_dropWhile (mem_pyStrip (List.mem_filter.mp hc).1)
  unfold Metadata.cleanValue at h1
  have h2 := (List.mem_filter.mp (mem_pyStrip h1)).2
  simp only [Bool.and_eq_true, bne_iff_ne, ne_eq] at h2
  exact h2

theorem mNorm_of_clean {y : PyStr} (hsp : ∀ c ∈ y, pyIsSpace c = false)
    (hzw : ∀ c ∈ y, c ≠ 0x200b ∧ c ≠ 0xfeff) :
    Metadata.normalizeTag y = y.dropWhile (· == 35) := by
  have hcv : Metadata.cleanValue y = y := by
    unfold Metadata.cleanValue
    rw [pyStrip_eq_self hsp]
    rw [List.filter_eq_self.mpr (by
      intro c hc
      have := hzw c hc
      simp [this.1, this.2])]
    exact pyStrip_eq_self hsp
  unfold Metadata.normalizeTag
  rw [hcv]
  rw [pyStrip_eq_self (fun c hc => hsp c (mem_of_dropWhile hc))]
  exact List.filter_eq_self.mpr (fun c hc => by simp [hsp c (mem_of_dropWhile hc)])

theorem aNorm_mem_core {c : Nat} {x : PyStr} (hc : c ∈ AutoTags.normalizeTag x) :
    pyIsSpace c = false ∧ AutoTags.isQuoteChar c = false := by
  unfold AutoTags.normalizeTag at hc
  have h1 := (List.take_sublist 20 _).mem hc
  have h2 := List.mem_filter.mp h1
  have h3 := List.mem_filter.mp h2.1
  constructor
  · simpa using h3.2
  · simpa using h2.2

theorem aNorm_length_le (x : PyStr) : (AutoTags.normalizeTag x).length ≤ 20 := by
  unfold AutoTags.normalizeTag
  exact List.length_take_le 20 _

theorem aNorm_of_clean {y : PyStr} (hsp : ∀ c ∈ y, pyIsSpace c = false)
    (hq : ∀ c ∈ y, AutoTags.isQuoteChar c = false) (hlen : y.length ≤ 20) :
    AutoTags.normalizeTag y = y.dropWhile (· == 35) := by
  have h2 : (y.dropWhile (· == 35)).filter (fun c => !pyIsSpace c)
      = y.dropWhile (· == 35) :=
    List.filter_eq_self.mpr (fun c hc => by simp [hsp c (mem_of_dropWhile hc)])
  have h3 : (y.dropWhile (· == 35)).filter (fun c => !AutoTags.isQuoteChar c)
      = y.dropWhile (· == 35) :=
    List.filter_eq_self.mpr (fun c hc => by simp [hq c (mem_of_dropWhile hc)])
  unfold AutoTags.normalizeTag
  rw [pyStrip_eq_self hsp, h2, h3]
  exact List.take_of_length_le (le_trans (List.dropWhile_sublist _).length_le hlen)

/-- C3 (counterexample): neither tag normalizer is idempotent.  For the
metadata normalizer, `"# #a"` normalizes to `"#a"` (the strip after the
`#`-strip exposes a fresh `#`), which normalizes again to `"a"`.  For the
`auto_tags` normalizer, `"\x22#a"` (straight quote, hash, `a`) normalizes to
`"#a"` (quote removal exposes a fresh leading `#`), which normalizes again to
`"a"`. -/
theorem c3_counterexample :
    Metadata.normalizeTag (Metadata.normalizeTag [35, 32, 35, 97])
        ≠ Metadata.normalizeTag [35, 32, 35, 97] ∧
    AutoTags.normalizeTag (AutoTags.normalizeTag [34, 35, 97])
        ≠ AutoTags.normalizeTag [34, 35, 97] := by decide

/-- C3 (amended): a second application of either tag normalizer changes the
result exactly by stripping its leading `#` characters; in particular both
normalizers are idempotent precisely on those inputs whose normalized form
has no leading `#`. -/
theorem c3_normalize_second_pass (x : PyStr) :
    Metadata.normalizeTag (Metadata.normalizeTag x)
        = (Metadata.normalizeTag x).dropWhile (· == 35) ∧
    AutoTags.normalizeTag (AutoTags.normalizeTag x)
        = (AutoTags.normalizeTag x).dropWhile (· == 35) := by
  constructor
  · exact mNorm_of_clean mNorm_no_space mNorm_no_zw
  · exact aNorm_of_clean (fun c hc => (aNorm_mem_core hc).1)
      (fun c hc => (aNorm_mem_core hc).2) (aNorm_length_le x)

/-! ### C5: sample_segments on text that fits one segment -/

/-- C5 (counterexample): for the empty text (whose length is at most any
`segment_len`) `sample_segments` returns `[]`, not `[text] = [""]`. -/
theorem c5_counterexample :
    AutoTags.sampleSegments [] 5 5 = [] ∧
      AutoTags.sampleSegments [] 5 5 ≠ [([] : PyStr)] := by decide

/-- C5 (amended): when `len(text) ≤ segment_len`, `sample_segments` returns
`[text]` for non-empty text and `[]` for the empty text. -/
theorem c5_fits_one_segment (text : PyStr) (segmentLen segments : Nat)
    (h : text.length ≤ segmentLen) :
    AutoTags.sampleSegments text segmentLen segments
      = if text.isEmpty then [] else [text] := by
  unfold AutoTags.sampleSegments
  cases text with
  | nil => simp
  | cons c r =>
      have h0 : ¬ segmentLen = 0 := by
        intro e
        rw [e] at h
        simp at h
      simp only [List.length_cons] at h
      simp [h0, h]

/-- Witness for `c5_fits_one_segment` at `text = "a"`, `segment_len = 3`. -/
theorem c5_fits_one_segment_witness :
    ([97] : PyStr).length ≤ 3 ∧
      AutoTags.sampleSegments [97] 3 5 = if ([97] : PyStr).isEmpty then [] else [[97]] :=
  ⟨by decide, c5_fits_one_segment [97] 3 5 (by decide)⟩

/-! ### C9: the two `seg_len`/`segments` derivations -/

/-- C9: the `(seg_len, segments)` pair that `generate_tags` derives for the
keyword extractor's per-segment pass coincides, for every title, with the
pair `sample_text` derives internally, and both equal
`(max 10000 ((200000 - overhead) / 5), 5)` with
`overhead = len(stripped title) + 1` for non-empty stripped titles and `0`
otherwise. -/
theorem c9_sampling_derivations_agree (title : PyStr) :
    AutoTags.generateTagsSampling title = AutoTags.sampleTextSampling title 200000 5 ∧
    AutoTags.generateTagsSampling title
      = (max 10000 ((200000 -
          (if !(pyStrip title).isEmpty then (pyStrip title).length + 1 else 0)) / 5), 5) := by
  unfold AutoTags.generateTagsSampling AutoTags.sampleTextSampling AutoTags.sampleTextSegLen
  by_cases hT : pyStrip title = []
  · simp [hT]
  · by_cases hA : 200000 - ((pyStrip title).length + 1) = 0
    · simp [hT, hA]
    · simp [hT, hA]
      intro h0
      omega

/-! ### C1 and C10: extract_upload_metadata totality, defaults, non-txt path -/

theorem cleanTitle_ne_nil (v : PyStr) : Metadata.cleanTitle v ≠ [] := by
  unfold Metadata.cleanTitle
  split
  · decide
  · next h => simpa using h

theorem cleanAuthor_ne_nil (v : PyStr) : Metadata.cleanAuthor v ≠ [] := by
  unfold Metadata.cleanAuthor
  split
  · decide
  · split
    · decide
    · next h => simpa using h

/-- Shared reduction of the branching part of `extract_upload_metadata` when
the `txt`-and-non-empty guard is false. -/
theorem finalizeTags_nil : Metadata.finalizeTags [] = [] := rfl

theorem extractRaw_skips (fileName fileExt : PyStr) (fileBytes : List Nat)
    (decodeChain : List Nat → PyStr)
    (hcond : (asciiLower fileExt == pyOfString "txt" && !fileBytes.isEmpty) = false) :
    Metadata.extractRaw fileName fileExt fileBytes decodeChain
      = { title := (Metadata.parseTitleAuthorFromFilename fileName).1,
          author := (Metadata.parseTitleAuthorFromFilename fileName).2,
          tags := [], wordCount := 0, description := none } := by
  unfold Metadata.extractRaw
  rw [hcond]
  rfl

/-- Shared reduction of `extract_upload_metadata` when the
`txt`-and-non-empty guard is false. -/
theorem extract_skips_bytes (fileName fileExt : PyStr) (fileBytes : List Nat)
    (decodeChain : List Nat → PyStr)
    (hcond : (asciiLower fileExt == pyOfString "txt" && !fileBytes.isEmpty) = false) :
    Metadata.extractUploadMetadata fileName fileExt fileBytes decodeChain
      = { title := Metadata.cleanTitle (Metadata.parseTitleAuthorFromFilename fileName).1,
          author := Metadata.cleanAuthor (Metadata.parseTitleAuthorFromFilename fileName).2,
          tags := [], wordCount := 0, description := none } := by
  unfold Metadata.extractUploadMetadata
  rw [extractRaw_skips fileName fileExt fileBytes decodeChain hcond]
  simp only [finalizeTags_nil]

theorem extract_title_eq (fileName fileExt : PyStr) (fileBytes : List Nat)
    (decodeChain : List Nat → PyStr) :
    (Metadata.extractUploadMetadata fileName fileExt fileBytes decodeChain).title
      = Metadata.cleanTitle (Metadata.extractRaw fileName fileExt fileBytes decodeChain).title := by
  unfold Metadata.extractUploadMetadata
  dsimp only

theorem extract_author_eq (fileName fileExt : PyStr) (fileBytes : List Nat)
    (decodeChain : List Nat → PyStr) :
    (Metadata.extractUploadMetadata fileName fileExt fileBytes decodeChain).author
      = Metadata.cleanAuthor (Metadata.extractRaw fileName fileExt fileBytes decodeChain).author := by
  unfold Metadata.extractUploadMetadata
  dsimp only

/-- C1: `extract_upload_metadata` is a total function of its inputs (it is
embedded as a Lean function, so it returns normally on every input,
including empty byte content and arbitrary decode results), the returned
title and author are never empty — the final `_clean_title` /
`_clean_author` pass maps empty values to `"未知"` / `"Unknown"` — and on an
input with nothing usable those two defaults are exactly what comes back.
The theorem quantifies over every decode result `decodeChain`, hence over
undecodable bytes as well. -/
theorem c1_title_author_never_empty :
    (∀ (fileName fileExt : PyStr) (fileBytes : List Nat)
        (decodeChain : List Nat → PyStr),
        (Metadata.extractUploadMetadata fileName fileExt fileBytes decodeChain).title ≠ [] ∧
        (Metadata.extractUploadMetadata fileName fileExt fileBytes decodeChain).author ≠ []) ∧
    (∀ decodeChain : List Nat → PyStr,
        Metadata.extractUploadMetadata [] [] [] decodeChain
          = { title := Metadata.unknownTitle, author := Metadata.unknownAuthor,
              tags := [], wordCount := 0, description := none }) := by
  constructor
  · intro fileName fileExt fileBytes decodeChain
    rw [extract_title_eq, extract_author_eq]
    exact ⟨cleanTitle_ne_nil _, cleanAuthor_ne_nil _⟩
  · intro decodeChain
    rw [extract_skips_bytes [] [] [] decodeChain (by decide)]
    decide

/-- C10: whenever the extension is not (case-insensitively) `txt` or the
byte content is empty, the result is exactly the re-cleaned filename parse
with empty tags, no description and word count zero; the bytes are never
decoded (the result does not depend on `decodeChain` or, beyond emptiness,
on `fileBytes`). -/
theorem c10_non_txt_or_empty_path (fileName fileExt : PyStr) (fileBytes : List Nat)
    (decodeChain : List Nat → PyStr)
    (h : asciiLower fileExt ≠ pyOfString "txt" ∨ fileBytes = []) :
    Metadata.extractUploadMetadata fileName fileExt fileBytes decodeChain
      = { title := Metadata.cleanTitle (Metadata.parseTitleAuthorFromFilename fileName).1,
          author := Metadata.cleanAuthor (Metadata.parseTitleAuthorFromFilename fileName).2,
          tags := [], wordCount := 0, description := none } := by
  apply extract_skips_bytes
  rcases h with h | h
  · simp [h]
  · simp [h]

/-- Witness for `c10_non_txt_or_empty_path` at a `pdf` upload with one
non-empty byte. -/
theorem c10_non_txt_or_empty_path_witness :
    (asciiLower (pyOfString "pdf") ≠ pyOfString "txt" ∨ ([120] : List Nat) = []) ∧
      Metadata.extractUploadMetadata (pyOfString "a.pdf") (pyOfString "pdf")
          [120] (fun b => b)
        = { title := Metadata.cleanTitle
              (Metadata.parseTitleAuthorFromFilename (pyOfString "a.pdf")).1,
            author := Metadata.cleanAuthor
              (Metadata.parseTitleAuthorFromFilename (pyOfString "a.pdf")).2,
            tags := [], wordCount := 0, description := none } :=
  ⟨Or.inl (by decide),
    c10_non_txt_or_empty_path (pyOfString "a.pdf") (pyOfString "pdf") [120]
      (fun b => b) (Or.inl (by decide))⟩

/-! ### C2: shape invariants of the returned tag list -/

theorem extract_tags_eq (fileName fileExt : PyStr) (fileBytes : List Nat)
    (decodeChain : List Nat → PyStr) :
    (Metadata.extractUploadMetadata fileName fileExt fileBytes decodeChain).tags
      = Metadata.finalizeTags
          (Metadata.extractRaw fileName fileExt fileBytes decodeChain).tags := by
  unfold Metadata.extractUploadMetadata
  dsimp only

theorem mem_dedupFAux {α : Type} [DecidableEq α] {x : α} :
    ∀ {seen l : List α}, x ∈ dedupFAux seen l → x ∈ l := by
  intro seen l
  induction l generalizing seen with
  | nil => intro h; simp [dedupFAux] at h
  | cons a r ih =>
      intro h
      unfold dedupFAux at h
      by_cases ha : a ∈ seen
      · simp only [ha, if_true] at h
        exact List.mem_cons_of_mem a (ih h)
      · simp only [ha, if_false] at h
        rcases List.mem_cons.mp h with rfl | h2
        · exact List.mem_cons_self x r
        · exact List.mem_cons_of_mem a (ih h2)

theorem mem_dedupF {α : Type} [DecidableEq α] {x : α} {l : List α}
    (h : x ∈ dedupF l) : x ∈ l := mem_dedupFAux h

theorem dedupFAux_nodup {α : Type} [DecidableEq α] :
    ∀ (l seen : List α),
      (dedupFAux seen l).Nodup ∧ ∀ x ∈ dedupFAux seen l, x ∉ seen := by
  intro l
  induction l with
  | nil => intro seen; simp [dedupFAux]
  | cons a r ih =>
      intro seen
      unfold dedupFAux
      by_cases ha : a ∈ seen
      · simp only [ha, if_true]
        exact ih seen
      · simp only [ha, if_false]
        refine ⟨List.nodup_cons.mpr ⟨?_, (ih (seen ++ [a])).1⟩, ?_⟩
        · intro hmem
          have := (ih (seen ++ [a])).2 a hmem
          simp at this
        · intro x hx
          rcases List.mem_cons.mp hx with rfl | hx2
          · exact ha
          · intro hxseen
            exact (ih (seen ++ [a])).2 x hx2 (by simp [hxseen])

theorem nodup_dedupF {α : Type} [DecidableEq α] (l : List α) :
    (dedupF l).Nodup := (dedupFAux_nodup l []).1

theorem mem_finalizeTags {t : PyStr} {l : List PyStr}
    (ht : t ∈ Metadata.finalizeTags l) :
    t.isEmpty = false ∧ ∃ x ∈ l, t = Metadata.normalizeTag x := by
  unfold Metadata.finalizeTags at ht
  have h1 := mem_dedupF ((List.take_sublist 30 _).mem ht)
  have h2 := List.mem_filter.mp h1
  obtain ⟨x, hx, hxe⟩ := List.mem_map.mp h2.1
  refine ⟨by simpa using h2.2, x, hx, hxe.symm⟩

theorem head_dropWhile_not {p : Nat → Bool} :
    ∀ {s : PyStr} {c : Nat}, (s.dropWhile p).head? = some c → p c = false := by
  intro s
  induction s with
  | nil => intro c h; simp at h
  | cons a r ih =>
      intro c h
      rw [List.dropWhile_cons] at h
      by_cases hp : p a
      · rw [if_pos hp] at h
        exact ih h
      · rw [if_neg hp] at h
        simp only [List.head?_cons, Option.some.injEq] at h
        rw [← h]
        simpa using hp

theorem mem_splitTags {t raw : PyStr} (ht : t ∈ Metadata.splitTags raw) :
    ∃ y, t = Metadata.normalizeTag y := by
  unfold Metadata.splitTags at ht
  dsimp only at ht
  split at ht
  · simp at ht
  · have h1 := mem_dedupF ((List.take_sublist 30 _).mem ht)
    have h2 := List.mem_filter.mp h1
    obtain ⟨x, hx, hxe⟩ := List.mem_map.mp h2.1
    exact ⟨x, hxe.symm⟩

theorem fmStep_tags_norms {fm : Metadata.FrontMatter} {ln : PyStr}
    (h : ∀ x ∈ fm.tags, ∃ y, x = Metadata.normalizeTag y) :
    ∀ x ∈ (Metadata.fmStep fm ln).tags, ∃ y, x = Metadata.normalizeTag y := by
  unfold Metadata.fmStep
  cases hp : Metadata.parseFieldLine ln with
  | none => exact h
  | some kv =>
      dsimp only
      split
      · exact h
      · split
        · exact h
        · split
          · intro x hx
            dsimp only at hx
            rcases List.mem_append.mp hx with hx2 | hx2
            · exact h x hx2
            · exact mem_splitTags hx2
          · split
            · exact h
            · exact h

theorem fmFold_tags_norms (lines : List PyStr) :
    ∀ (fm : Metadata.FrontMatter),
      (∀ x ∈ fm.tags, ∃ y, x = Metadata.normalizeTag y) →
      ∀ x ∈ (lines.foldl Metadata.fmStep fm).tags, ∃ y, x = Metadata.normalizeTag y := by
  induction lines with
  | nil => intro fm h; simpa using h
  | cons ln rest ih =>
      intro fm h
      simp only [List.foldl_cons]
      exact ih _ (fmStep_tags_norms h)

theorem fm_tags_norms (text : PyStr) :
    ∀ x ∈ (Metadata.extractTxtFrontMatter text).tags,
      ∃ y, x = Metadata.normalizeTag y := by
  intro x hx
  unfold Metadata.extractTxtFrontMatter at hx
  dsimp only at hx
  have h1 := mem_dedupF ((List.take_sublist 30 _).mem hx)
  have h2 := (List.mem_filter.mp h1).1
  refine fmFold_tags_norms _ {} ?_ x h2
  intro z hz
  simp [Metadata.FrontMatter.tags] at hz

theorem extractRaw_tags_norms (fileName fileExt : PyStr) (fileBytes : List Nat)
    (decodeChain : List Nat → PyStr) :
    ∀ x ∈ (Metadata.extractRaw fileName fileExt fileBytes decodeChain).tags,
      ∃ y, x = Metadata.normalizeTag y := by
  unfold Metadata.extractRaw
  dsimp only
  split
  · dsimp only
    split
    · intro x hx
      simp at hx
    · exact fm_tags_norms _
  · intro x hx
    simp at hx

set_option maxHeartbeats 1600000 in
theorem finalizeTags_shape {l : List PyStr}
    (h : ∀ x ∈ l, ∃ y, x = Metadata.normalizeTag y) :
    (Metadata.finalizeTags l).all tagShapeOk = true ∧
      (Metadata.finalizeTags l).Nodup ∧ (Metadata.finalizeTags l).length ≤ 30 := by
  refine ⟨List.all_eq_true.mpr ?_, ?_, ?_⟩
  · intro t ht
    obtain ⟨hne, x, hx, hteq⟩ := mem_finalizeTags ht
    obtain ⟨y, rfl⟩ := h x hx
    have hdrop : Metadata.normalizeTag (Metadata.normalizeTag y)
        = (Metadata.normalizeTag y).dropWhile (· == 35) :=
      mNorm_of_clean mNorm_no_space mNorm_no_zw
    unfold tagShapeOk
    refine (Bool.and_eq_true _ _).mpr ⟨(Bool.and_eq_true _ _).mpr ⟨?_, ?_⟩, ?_⟩
    · simpa using hne
    · cases hh : t.head? with
      | none =>
          rw [List.head?_eq_none_iff] at hh
          rw [hh] at hne
          simp at hne
      | some c =>
          have : (c == 35) = false := by
            have hh2 := hh
            rw [hteq, hdrop] at hh2
            have h35 := head_dropWhile_not hh2
            exact h35
          simp only [bne_iff_ne, ne_eq, Option.some.injEq]
          intro hc
          rw [hc] at this
          simp at this
    · refine List.all_eq_true.mpr ?_
      intro c hc
      rw [hteq] at hc
      simpa using mNorm_no_space c hc
  · unfold Metadata.finalizeTags
    exact (List.take_sublist 30 _).nodup (nodup_dedupF _)
  · unfold Metadata.finalizeTags
    exact List.length_take_le 30 _

/-- C2 (counterexample): a front-matter tag longer than 20 characters
survives extraction unshortened — the metadata `_normalize_tag` has no
length cap (unlike the `auto_tags` one).  The 25-character tag value below
comes back as a 25-character tag.  The identity `decodeChain` is what the
real codec chain returns on this pure-ASCII byte content. -/
theorem c2_counterexample :
    (Metadata.extractUploadMetadata (pyOfString "b.txt") (pyOfString "txt")
        (pyOfString "tags: abcdefghijklmnopqrstuvwxy") (fun b => b)).tags
      = [pyOfString "abcdefghijklmnopqrstuvwxy"] ∧
    ¬ ((Metadata.extractUploadMetadata (pyOfString "b.txt") (pyOfString "txt")
        (pyOfString "tags: abcdefghijklmnopqrstuvwxy") (fun b => b)).tags.all
          (fun t => decide (t.length ≤ 20)) = true) := by decide

/-- C2 (amended): for every input, every returned tag is non-empty, has no
leading `#` and no whitespace character anywhere, and the tag list is
duplicate-free (first occurrence wins) with length at most 30.  There is no
20-character bound on the metadata path. -/
theorem c2_tag_invariants (fileName fileExt : PyStr) (fileBytes : List Nat)
    (decodeChain : List Nat → PyStr) :
    ((Metadata.extractUploadMetadata fileName fileExt fileBytes decodeChain).tags.all
        tagShapeOk = true) ∧
    (Metadata.extractUploadMetadata fileName fileExt fileBytes decodeChain).tags.Nodup ∧
    (Metadata.extractUploadMetadata fileName fileExt fileBytes decodeChain).tags.length ≤ 30 := by
  rw [extract_tags_eq]
  exact finalizeTags_shape
    (extractRaw_tags_norms fileName fileExt fileBytes decodeChain)

/-! ### C4: the sample_text length budget -/

theorem dedupFAux_length_le {α : Type} [DecidableEq α] :
    ∀ (l seen : List α), (dedupFAux seen l).length ≤ l.length := by
  intro l
  induction l with
  | nil => intro seen; simp [dedupFAux]
  | cons a r ih =>
      intro seen
      unfold dedupFAux
      by_cases ha : a ∈ seen
      · simp only [ha, if_true]
        exact le_trans (ih seen) (by simp)
      · simp only [ha, if_false, List.length_cons]
        exact Nat.succ_le_succ (ih (seen ++ [a]))

theorem sampleSegments_elem_len {s text : PyStr} {L k : Nat}
    (hs : s ∈ AutoTags.sampleSegments text L k) : s.length ≤ L := by
  unfold AutoTags.sampleSegments at hs
  dsimp only at hs
  split at hs
  · simp at hs
  · split at hs
    · next hfit =>
        simp only [List.mem_singleton] at hs
        subst hs
        exact hfit
    · obtain ⟨pos, hpos, rfl⟩ := List.mem_map.mp hs
      simp only [List.length_take]
      exact Nat.min_le_left _ _

theorem sampleSegments_count (text : PyStr) (L k : Nat) :
    (AutoTags.sampleSegments text L k).length ≤ max 1 k := by
  unfold AutoTags.sampleSegments
  dsimp only
  split
  · simp
  · split
    · simp
    · rw [List.length_map]
      split
      · calc (dedupF [0]).length ≤ [0].length := dedupFAux_length_le _ _
          _ ≤ max 1 k := by simp
      · calc (dedupF _).length
            ≤ ((List.range k).map _).length := dedupFAux_length_le _ _
          _ = k := by simp
          _ ≤ max 1 k := le_max_right 1 k

theorem length_intercalateNL_le : ∀ (segs : List PyStr) (L : Nat),
    (∀ s ∈ segs, s.length ≤ L) →
    (List.intercalate [10] segs).length ≤ segs.length * (L + 1) := by
  intro segs
  induction segs with
  | nil => intro L h; simp [List.intercalate]
  | cons a r ih =>
      intro L h
      cases r with
      | nil =>
          have h1 := h a (by simp)
          simp only [List.intercalate, List.intersperse, List.flatten]
          simp
          omega
      | cons b r2 =>
          have hstep : List.intercalate [10] (a :: b :: r2)
              = a ++ 10 :: List.intercalate [10] (b :: r2) := by
            simp [List.intercalate, List.intersperse]
          rw [hstep]
          have h1 := h a (by simp)
          have h2 := ih L (fun s hs => h s (List.mem_cons_of_mem a hs))
          have hmul : (b :: r2).length * (L + 1) + (L + 1)
              = (a :: b :: r2).length * (L + 1) := by
            simp only [List.length_cons]
            ring
          calc (a ++ 10 :: List.intercalate [10] (b :: r2)).length
              = a.length + (List.intercalate [10] (b :: r2)).length + 1 := by
                simp [List.length_append]
                omega
            _ ≤ (b :: r2).length * (L + 1) + (L + 1) := by omega
            _ = (a :: b :: r2).length * (L + 1) := hmul

theorem intercalateNL_budget {segs : List PyStr} {L c : Nat}
    (helem : ∀ s ∈ segs, s.length ≤ L) (hcount : segs.length ≤ c) :
    (List.intercalate [10] segs).length ≤ c * (L + 1) :=
  le_trans (length_intercalateNL_le segs L helem)
    (Nat.mul_le_mul_right (L + 1) hcount)

/-- C4: for every title, text and budget with `budget ≥ len(title) + 1`, the
sampled classifier text stays within the budget plus the fixed constant
50005 = 5 × (10000 + 1) + 1 × (title separator + 4 joins), coming from the
10000-character minimum segment length; the constant depends on neither
`len(text)` nor `budget`. -/
theorem segLen_bound (t : PyStr) (budget : Nat) :
    5 * AutoTags.sampleTextSegLen t budget 5
      ≤ 50000 + (budget - (if !t.isEmpty then t.length + 1 else 0)) := by
  unfold AutoTags.sampleTextSegLen
  dsimp only
  have hmax : (max 1 5 : Nat) = 5 := rfl
  by_cases hT : (!t.isEmpty) = true
  · rw [if_pos hT, hmax, Nat.max_def]
    split <;> omega
  · rw [if_neg hT, hmax, Nat.max_def]
    split <;> omega

theorem c4_sample_text_budget (title text : PyStr) (budget : Nat)
    (h : title.length + 1 ≤ budget) :
    (AutoTags.sampleText title text budget 5).length ≤ budget + 50005 := by
  have hst := pyStrip_length_le title
  unfold AutoTags.sampleText
  dsimp only
  split
  · omega
  · split
    · omega
    · have helem : ∀ s ∈ AutoTags.sampleSegments text
          (AutoTags.sampleTextSegLen (pyStrip title) budget 5) 5,
          s.length ≤ AutoTags.sampleTextSegLen (pyStrip title) budget 5 :=
        fun s hs => sampleSegments_elem_len hs
      have hcount := sampleSegments_count text
        (AutoTags.sampleTextSegLen (pyStrip title) budget 5) 5
      have hJ := intercalateNL_budget helem (by simpa using hcount)
      have hL := segLen_bound (pyStrip title) budget
      split
      · next hT =>
          rw [if_pos hT] at hL
          split
          · next hfit =>
              simp only [List.length_append, List.length_cons]
              omega
          · next hfit =>
              simp only [List.length_append, List.length_cons]
              omega
      · next hT =>
          rw [if_neg hT] at hL
          split
          · next hfit => omega
          · next hfit => omega

/-- Witness for `c4_sample_text_budget` at `title = "a"`, `text = "bc"`,
`budget = 2`. -/
theorem c4_sample_text_budget_witness :
    ([97] : PyStr).length + 1 ≤ 2 ∧
      (AutoTags.sampleText [97] [98, 99] 2 5).length ≤ 2 + 50005 :=
  ⟨by decide, c4_sample_text_budget [97] [98, 99] 2 (by decide)⟩

/-! ### C7: title-derived tags -/

theorem getLast?_dropWhile {p : Nat → Bool} :
    ∀ {s : PyStr} {c : Nat}, (s.dropWhile p).getLast? = some c → s.getLast? = some c := by
  intro s
  induction s with
  | nil => intro c h; simp at h
  | cons a r ih =>
      intro c h
      rw [List.dropWhile_cons] at h
      by_cases hp : p a
      · rw [if_pos hp] at h
        have h2 := ih h
        cases r with
        | nil => simp at h2
        | cons b r2 => rw [List.getLast?_cons_cons]; exact h2
      · rw [if_neg hp] at h
        exact h

theorem head_pyStrip_not {s : PyStr} {c : Nat} (h : (pyStrip s).head? = some c) :
    pyIsSpace c = false := by
  unfold pyStrip at h
  rw [List.head?_reverse] at h
  have h2 := getLast?_dropWhile h
  rw [List.getLast?_reverse] at h2
  exact head_dropWhile_not h2

theorem last_pyStrip_not {s : PyStr} {c : Nat} (h : (pyStrip s).getLast? = some c) :
    pyIsSpace c = false := by
  unfold pyStrip at h
  rw [List.getLast?_reverse] at h
  exact head_dropWhile_not h

theorem dropWhile_eq_self_of_head {p : Nat → Bool} {s : PyStr}
    (h : ∀ c, s.head? = some c → p c = false) : s.dropWhile p = s := by
  cases s with
  | nil => rfl
  | cons a r =>
      rw [List.dropWhile_cons, if_neg]
      simp [h a rfl]

theorem pyStrip_idem (s : PyStr) : pyStrip (pyStrip s) = pyStrip s := by
  have h1 : (pyStrip s).dropWhile pyIsSpace = pyStrip s :=
    dropWhile_eq_self_of_head (fun c hc => head_pyStrip_not hc)
  show (((pyStrip s).dropWhile pyIsSpace).reverse.dropWhile pyIsSpace).reverse = pyStrip s
  rw [h1]
  rw [dropWhile_eq_self_of_head (fun c hc => by
    rw [List.head?_reverse] at hc
    exact last_pyStrip_not hc)]
  exact List.reverse_reverse _

theorem listStartsWith_append_self : ∀ (a v : PyStr), listStartsWith a (a ++ v) = true := by
  intro a
  induction a with
  | nil => intro v; rfl
  | cons c r ih => intro v; simp [listStartsWith, ih]

theorem containsSub_of_startsWith {a b : PyStr} (h : listStartsWith a b = true) :
    containsSub a b = true := by
  cases b with
  | nil => simpa [containsSub] using h
  | cons c r => simp [containsSub, h]

theorem containsSub_of_infix {a b : PyStr} (h : a <:+: b) : containsSub a b = true := by
  obtain ⟨u, v, rfl⟩ := h
  induction u with
  | nil => exact containsSub_of_startsWith (by simpa using listStartsWith_append_self a v)
  | cons c u' ih => simpa [containsSub] using Or.inr ih

theorem cjkFold_sound (hi lo : Nat) (hlohi : lo ≤ hi) (C : PyStr) :
    ∀ (s : PyStr) (st : AutoTags.ScanState),
      (∀ m ∈ st.acc, m.2 <:+: C ∧ (∀ c ∈ m.2, isCJK c = true) ∧
          lo ≤ m.2.length ∧ m.2.length ≤ hi) →
      (st.pend ++ s) <:+: C →
      (∀ c ∈ st.pend, isCJK c = true) →
      st.pend.length < hi →
      (∀ m ∈ (s.foldl (AutoTags.cjkStep hi lo) st).acc,
          m.2 <:+: C ∧ (∀ c ∈ m.2, isCJK c = true) ∧
          lo ≤ m.2.length ∧ m.2.length ≤ hi) ∧
      ((s.foldl (AutoTags.cjkStep hi lo) st).pend <:+: C) ∧
      (∀ c ∈ (s.foldl (AutoTags.cjkStep hi lo) st).pend, isCJK c = true) ∧
      (s.foldl (AutoTags.cjkStep hi lo) st).pend.length < hi := by
  intro s
  induction s with
  | nil =>
      intro st hacc hinf hcjk hlen
      simp only [List.foldl_nil]
      exact ⟨hacc, by simpa using hinf, hcjk, hlen⟩
  | cons c rest ih =>
      intro st hacc hinf hcjk hlen
      simp only [List.foldl_cons]
      have hrest : rest <:+: C := by
        refine List.IsInfix.trans ?_ hinf
        exact ⟨st.pend ++ [c], [], by simp⟩
      have hpendc : (st.pend ++ [c]) <:+: C := by
        refine List.IsInfix.trans ?_ hinf
        refine List.IsPrefix.isInfix ⟨rest, by simp⟩
      apply ih
      · -- acc of the stepped state
        unfold AutoTags.cjkStep
        by_cases hc : isCJK c = true
        · rw [if_pos hc]
          dsimp only
          by_cases hfull : (st.pend ++ [c]).length = hi
          · rw [if_pos hfull]
            intro m hm
            rcases List.mem_append.mp hm with hm2 | hm2
            · exact hacc m hm2
            · simp only [List.mem_singleton] at hm2
              subst hm2
              refine ⟨hpendc, ?_, ?_, ?_⟩
              · intro d hd
                rcases List.mem_append.mp hd with hd2 | hd2
                · exact hcjk d hd2
                · simp only [List.mem_singleton] at hd2
                  subst hd2
                  exact hc
              · simp only [hfull]
                exact hlohi
              · simp only [hfull]
                exact le_refl hi
          · rw [if_neg hfull]
            exact hacc
        · rw [if_neg hc]
          by_cases hflush : lo ≤ st.pend.length
          · rw [if_pos hflush]
            intro m hm
            rcases List.mem_append.mp hm with hm2 | hm2
            · exact hacc m hm2
            · simp only [List.mem_singleton] at hm2
              subst hm2
              refine ⟨?_, hcjk, hflush, le_of_lt hlen⟩
              refine List.IsInfix.trans ?_ hinf
              exact List.IsPrefix.isInfix ⟨c :: rest, by simp⟩
          · rw [if_neg hflush]
            exact hacc
      · -- pend ++ rest infix
        unfold AutoTags.cjkStep
        by_cases hc : isCJK c = true
        · rw [if_pos hc]
          dsimp only
          by_cases hfull : (st.pend ++ [c]).length = hi
          · rw [if_pos hfull]
            simpa using hrest
          · rw [if_neg hfull]
            simpa [List.append_assoc] using hinf
        · rw [if_neg hc]
          by_cases hflush : lo ≤ st.pend.length
          · rw [if_pos hflush]
            simpa using hrest
          · rw [if_neg hflush]
            simpa using hrest
      · -- pend chars CJK
        unfold AutoTags.cjkStep
        by_cases hc : isCJK c = true
        · rw [if_pos hc]
          dsimp only
          by_cases hfull : (st.pend ++ [c]).length = hi
          · rw [if_pos hfull]
            intro d hd
            simp at hd
          · rw [if_neg hfull]
            intro d hd
            rcases List.mem_append.mp hd with hd2 | hd2
            · exact hcjk d hd2
            · simp only [List.mem_singleton] at hd2
              subst hd2
              exact hc
        · rw [if_neg hc]
          by_cases hflush : lo ≤ st.pend.length
          · rw [if_pos hflush]
            intro d hd
            simp at hd
          · rw [if_neg hflush]
            intro d hd
            simp at hd
      · -- pend length < hi
        unfold AutoTags.cjkStep
        by_cases hc : isCJK c = true
        · rw [if_pos hc]
          dsimp only
          by_cases hfull : (st.pend ++ [c]).length = hi
          · rw [if_pos hfull]
            simp
            omega
          · rw [if_neg hfull]
            simp only [List.length_append, List.length_singleton] at hfull ⊢
            omega
        · rw [if_neg hc]
          by_cases hflush : lo ≤ st.pend.length
          · rw [if_pos hflush]
            simp
            omega
          · rw [if_neg hflush]
            simp
            omega

theorem cjkScan_sound {hi lo : Nat} (hlohi : lo ≤ hi) (hlo : 1 ≤ lo) (s : PyStr) :
    ∀ m ∈ AutoTags.cjkScan hi lo s,
      m.2 <:+: s ∧ (∀ c ∈ m.2, isCJK c = true) ∧ lo ≤ m.2.length ∧ m.2.length ≤ hi := by
  intro m hm
  unfold AutoTags.cjkScan at hm
  dsimp only at hm
  have H := cjkFold_sound hi lo hlohi s s
    { pos := 0, pendStart := 0, pend := [], acc := [] }
    (by intro m2 hm2; simp at hm2)
    (by simpa using (⟨[], [], by simp⟩ : s <:+: s))
    (by intro d hd; simp at hd)
    (by simp; omega)
  split at hm
  · next hfl =>
      rcases List.mem_append.mp hm with hm2 | hm2
      · exact H.1 m hm2
      · simp only [List.mem_singleton] at hm2
        subst hm2
        exact ⟨H.2.1, H.2.2.1, hfl.1, le_of_lt H.2.2.2⟩
  · exact H.1 m hm

theorem aNorm_cjk_id {t : PyStr} (hcjk : ∀ c ∈ t, isCJK c = true)
    (hlen : t.length ≤ 20) : AutoTags.normalizeTag t = t := by
  have hbig : ∀ c ∈ t, 0x4e00 ≤ c := by
    intro c hc
    have h := hcjk c hc
    unfold isCJK at h
    simp only [Bool.and_eq_true, decide_eq_true_eq] at h
    exact h.1
  have hsp : ∀ c ∈ t, pyIsSpace c = false := by
    intro c hc
    have h := hbig c hc
    unfold pyIsSpace
    simp only [List.contains_eq_any_beq, List.any_cons, List.any_nil, Bool.or_eq_false_iff,
      beq_eq_false_iff_ne, ne_eq, Bool.and_eq_false_iff, decide_eq_false_iff_not, not_le,
      and_true]
    omega
  have hq : ∀ c ∈ t, AutoTags.isQuoteChar c = false := by
    intro c hc
    have h := hbig c hc
    unfold AutoTags.isQuoteChar
    simp only [List.contains_eq_any_beq, List.any_cons, List.any_nil, Bool.or_eq_false_iff,
      beq_eq_false_iff_ne, ne_eq, and_true]
    omega
  have hdrop : t.dropWhile (· == 35) = t := by
    apply dropWhile_eq_self_of
    intro c hc
    have h := hbig c hc
    simp only [beq_eq_false_iff_ne, ne_eq]
    omega
  have h2 : t.filter (fun c => !pyIsSpace c) = t :=
    List.filter_eq_self.mpr (fun c hc => by simp [hsp c hc])
  have h3 : t.filter (fun c => !AutoTags.isQuoteChar c) = t :=
    List.filter_eq_self.mpr (fun c hc => by simp [hq c hc])
  unfold AutoTags.normalizeTag
  rw [pyStrip_eq_self hsp, hdrop, h2, h3]
  exact List.take_of_length_le hlen

theorem sampleText_starts_with_title {t text : PyStr} (hid : pyStrip t = t)
    (hne : t ≠ []) : t <+: AutoTags.sampleText t text 200000 5 := by
  have hb : (!t.isEmpty) = true := by simp [hne]
  unfold AutoTags.sampleText
  rw [hid]
  dsimp only
  rw [if_neg (by omega : ¬(200000 : Nat) = 0)]
  simp only [hb, eq_self_iff_true, if_true]
  split
  · exact ⟨[], by simp⟩
  · split
    · exact ⟨_, rfl⟩
    · exact ⟨_, rfl⟩

theorem foldl_mem_invariant {α β : Type} (P : β → Prop) (f : List β → α → List β) :
    ∀ (l : List α) (b : List β), (∀ y ∈ b, P y) →
      (∀ acc, (∀ y ∈ acc, P y) → ∀ a ∈ l, ∀ y ∈ f acc a, P y) →
      ∀ y ∈ l.foldl f b, P y := by
  intro l
  induction l with
  | nil =>
      intro b hb _
      simpa using hb
  | cons a r ih =>
      intro b hb hstep
      simp only [List.foldl_cons]
      exact ih _ (hstep b hb a (by simp))
        (fun acc hacc x hx => hstep acc hacc x (List.mem_cons_of_mem a hx))

theorem addTok_preserves {P : PyStr → Prop} {out : List PyStr} {t : PyStr}
    (hout : ∀ x ∈ out, P x) (ht : P t) :
    ∀ x ∈ AutoTags.addTok out t, P x := by
  unfold AutoTags.addTok
  split
  · exact hout
  · split
    · exact hout
    · intro x hx
      rcases List.mem_append.mp hx with hx2 | hx2
      · exact hout x hx2
      · simp only [List.mem_singleton] at hx2
        subst hx2
        exact ht

theorem titleKeywordsCore_sound (toks : List PyStr) (anchor src : PyStr)
    (hsrc : src ≠ [])
    (htoks : ∀ nt ∈ toks, nt ∈ AutoTags.tokenizeCJK anchor ∧
        nt <:+: src ∧ 2 ≤ nt.length) :
    (AutoTags.titleKeywordsCore toks src).length ≤ 10 ∧
    ∀ x ∈ AutoTags.titleKeywordsCore toks src,
      2 ≤ x.length ∧ x.length ≤ 4 ∧
      (AutoTags.tokenizeCJK anchor).any (fun tok => containsSub x tok) = true ∧
      containsSub x src = true := by
  unfold AutoTags.titleKeywordsCore
  refine ⟨List.length_take_le 10 _, ?_⟩
  intro x hx
  refine foldl_mem_invariant
    (fun y => 2 ≤ y.length ∧ y.length ≤ 4 ∧
      (AutoTags.tokenizeCJK anchor).any (fun tok => containsSub y tok) = true ∧
      containsSub y src = true)
    _ toks [] (by intro y hy; simp at hy) ?_
    x ((List.take_sublist 10 _).mem hx)
  intro out hout nt hnt
  obtain ⟨htokmem, hinfsrc, hlo2⟩ := htoks nt hnt
  dsimp only
  split
  · exact hout
  · split
    · next hle4 =>
        refine addTok_preserves hout ⟨hlo2, hle4, ?_, containsSub_of_infix hinfsrc⟩
        exact List.any_eq_true.mpr
          ⟨nt, htokmem, containsSub_of_infix ⟨[], [], by simp⟩⟩
    · refine foldl_mem_invariant
        (fun y => 2 ≤ y.length ∧ y.length ≤ 4 ∧
      (AutoTags.tokenizeCJK anchor).any (fun tok => containsSub y tok) = true ∧
      containsSub y src = true)
        _ [4, 3, 2] out hout ?_
      intro outk houtk k hk
      refine foldl_mem_invariant
        (fun y => 2 ≤ y.length ∧ y.length ≤ 4 ∧
      (AutoTags.tokenizeCJK anchor).any (fun tok => containsSub y tok) = true ∧
      containsSub y src = true)
        _ (List.range (nt.length - k + 1)) outk houtk ?_
      intro outi houti i hi
      dsimp only
      split
      · exact houti
      · next hge2 =>
          split
          · exact houti
          · next hguard =>
              have hsrcb : src.isEmpty = false := by simp [hsrc]
              simp only [hsrcb, Bool.not_false, Bool.true_and, Bool.not_eq_true,
                Bool.not_eq_false] at hguard
              have hk4 : k ≤ 4 := by
                simp only [List.mem_cons, List.not_mem_nil, or_false] at hk
                rcases hk with rfl | rfl | rfl <;> omega
              have hlenk : ((nt.drop i).take k).length ≤ k := by
                simp only [List.length_take]
                exact Nat.min_le_left _ _
              have hcs : containsSub ((nt.drop i).take k) src = true := by
                simpa using hguard
              refine addTok_preserves houti ⟨by omega, by omega, ?_, hcs⟩
              refine List.any_eq_true.mpr ⟨nt, htokmem, containsSub_of_infix ?_⟩
              exact ⟨nt.take i, (nt.drop i).drop k, by simp⟩

theorem titleKeywords_sound (t' : PyStr) (src : PyStr) (hid : pyStrip t' = t')
    (hpre : t' <+: src) (hne : t' ≠ []) :
    (AutoTags.titleKeywords t' src).length ≤ 10 ∧
    ∀ x ∈ AutoTags.titleKeywords t' src,
      2 ≤ x.length ∧ x.length ≤ 4 ∧
      (AutoTags.tokenizeCJK t').any (fun tok => containsSub x tok) = true ∧
      containsSub x src = true := by
  have hsrc : src ≠ [] := by
    intro e
    subst e
    obtain ⟨u, hu⟩ := hpre
    exact hne (List.append_eq_nil.mp hu).1
  have htoks : ∀ nt ∈ (AutoTags.tokenizeCJK t').map AutoTags.normalizeTag,
      nt ∈ AutoTags.tokenizeCJK t' ∧ nt <:+: src ∧ 2 ≤ nt.length := by
    intro nt hnt
    obtain ⟨tok, htok, rfl⟩ := List.mem_map.mp hnt
    obtain ⟨m, hm, rfl⟩ := List.mem_map.mp htok
    obtain ⟨hinf, hcjk, hlo, hhi⟩ := cjkScan_sound (by omega) (by omega) t' m hm
    have hid2 : AutoTags.normalizeTag m.2 = m.2 := aNorm_cjk_id hcjk (by omega)
    rw [hid2]
    refine ⟨List.mem_map.mpr ⟨m, hm, rfl⟩, ?_, hlo⟩
    exact List.IsInfix.trans hinf hpre.isInfix
  unfold AutoTags.titleKeywords
  rw [hid]
  rw [if_neg (by simp [hne])]
  exact titleKeywordsCore_sound _ t' src hsrc htoks

/-- C7: every tag that `generate_tags` hands to the tag merger's
highest-priority source (`title_tags = _title_keywords(title, src)` with
`src = sample_text(title, text, 200000, 5)`) is a 2–4-character window of a
CJK token of the stripped title that also occurs verbatim in the sampled
classifier text `src` (which begins with the title line itself), and at most
10 such tags are produced. -/
theorem c7_title_tags_windows (title text : PyStr) :
    (AutoTags.titleTagsOf title text).length ≤ 10 ∧
    (AutoTags.titleTagsOf title text).all (fun t =>
        decide (2 ≤ t.length) && decide (t.length ≤ 4) &&
        (AutoTags.tokenizeCJK (pyStrip title)).any (fun tok => containsSub t tok) &&
        containsSub t (AutoTags.sampleText (pyStrip title) text 200000 5)) = true := by
  by_cases hT : pyStrip title = []
  · unfold AutoTags.titleTagsOf AutoTags.titleKeywords
    rw [hT]
    rw [show pyStrip ([] : PyStr) = [] from rfl]
    simp
  · have hid : pyStrip (pyStrip title) = pyStrip title := pyStrip_idem title
    have hpre : pyStrip title <+:
        AutoTags.sampleText (pyStrip title) text 200000 5 :=
      sampleText_starts_with_title hid hT
    obtain ⟨hlen, hall⟩ := titleKeywords_sound (pyStrip title)
      (AutoTags.sampleText (pyStrip title) text 200000 5) hid hpre hT
    refine ⟨hlen, List.all_eq_true.mpr ?_⟩
    intro t ht
    obtain ⟨h1, h2, h3, h4⟩ := hall t ht
    simp [h1, h2, h3, h4]

/-! ### C8: front-matter first-match fields and accumulated tags -/

theorem authorKeys_not_title : ∀ a ∈ Metadata.authorKeys,
    Metadata.titleKeys.contains a = false := by decide

theorem tagKeys_not_title_author : ∀ a ∈ Metadata.tagFieldKeys,
    Metadata.titleKeys.contains a = false ∧
      Metadata.authorKeys.contains a = false := by decide

theorem descKeys_not_others : ∀ a ∈ Metadata.descFieldKeys,
    Metadata.titleKeys.contains a = false ∧
      Metadata.authorKeys.contains a = false ∧
      Metadata.tagFieldKeys.contains a = false := by decide

theorem fmStep_none {fm : Metadata.FrontMatter} {ln : PyStr}
    (hp : Metadata.parseFieldLine ln = none) : Metadata.fmStep fm ln = fm := by
  unfold Metadata.fmStep
  rw [hp]

theorem fmStep_title {fm : Metadata.FrontMatter} {ln k v : PyStr}
    (hp : Metadata.parseFieldLine ln = some (k, v)) :
    (Metadata.fmStep fm ln).title?
      = if (Metadata.titleKeys.contains k && fm.title?.isNone) = true
        then some (Metadata.cleanTitle v) else fm.title? := by
  unfold Metadata.fmStep
  rw [hp]
  dsimp only
  by_cases h1 : (Metadata.titleKeys.contains k && fm.title?.isNone) = true
  · rw [if_pos h1, if_pos h1]
  · rw [if_neg h1, if_neg h1]
    split
    · rfl
    · split
      · rfl
      · split
        · rfl
        · rfl

theorem fmStep_author {fm : Metadata.FrontMatter} {ln k v : PyStr}
    (hp : Metadata.parseFieldLine ln = some (k, v)) :
    (Metadata.fmStep fm ln).author?
      = if (Metadata.authorKeys.contains k && fm.author?.isNone) = true
        then some (Metadata.cleanAuthor v) else fm.author? := by
  unfold Metadata.fmStep
  rw [hp]
  dsimp only
  by_cases h2 : (Metadata.authorKeys.contains k && fm.author?.isNone) = true
  · have hak : Metadata.authorKeys.contains k = true := (Bool.and_eq_true _ _).mp h2 |>.1
    have htk : Metadata.titleKeys.contains k = false :=
      authorKeys_not_title k (by simpa using hak)
    rw [if_neg (by simp only [htk, Bool.false_and]; exact Bool.false_ne_true), if_pos h2, if_pos h2]
  · rw [if_neg h2, if_neg h2]
    split
    · rfl
    · split
      · rfl
      · split
        · rfl
        · rfl

theorem fmStep_tagsList {fm : Metadata.FrontMatter} {ln k v : PyStr}
    (hp : Metadata.parseFieldLine ln = some (k, v)) :
    (Metadata.fmStep fm ln).tags
      = if Metadata.tagFieldKeys.contains k = true
        then fm.tags ++ Metadata.splitTags v else fm.tags := by
  unfold Metadata.fmStep
  rw [hp]
  dsimp only
  by_cases h3 : Metadata.tagFieldKeys.contains k = true
  · obtain ⟨htk, hak⟩ := tagKeys_not_title_author k (by simpa using h3)
    rw [if_neg (by simp only [htk, Bool.false_and]; exact Bool.false_ne_true), if_neg (by simp only [hak, Bool.false_and]; exact Bool.false_ne_true), if_pos h3, if_pos h3]
  · rw [if_neg h3, if_neg h3]
    split
    · rfl
    · split
      · rfl
      · split
        · rfl
        · rfl

theorem fmStep_descr {fm : Metadata.FrontMatter} {ln k v : PyStr}
    (hp : Metadata.parseFieldLine ln = some (k, v)) :
    (Metadata.fmStep fm ln).descr?
      = if (Metadata.descFieldKeys.contains k && fm.descr?.isNone) = true
        then some (v.take 800) else fm.descr? := by
  unfold Metadata.fmStep
  rw [hp]
  dsimp only
  by_cases h4 : (Metadata.descFieldKeys.contains k && fm.descr?.isNone) = true
  · have hdk : Metadata.descFieldKeys.contains k = true := (Bool.and_eq_true _ _).mp h4 |>.1
    obtain ⟨htk, hak, hgk⟩ := descKeys_not_others k (by simpa using hdk)
    rw [if_neg (by simp only [htk, Bool.false_and]; exact Bool.false_ne_true), if_neg (by simp only [hak, Bool.false_and]; exact Bool.false_ne_true), if_neg (by simp only [hgk, Bool.false_and]; exact Bool.false_ne_true),
      if_pos h4, if_pos h4]
  · rw [if_neg h4, if_neg h4]
    split
    · rfl
    · split
      · rfl
      · split
        · rfl
        · rfl

theorem firstField_cons (keys : List PyStr) (k v : PyStr)
    (rs : List (PyStr × PyStr)) :
    Metadata.firstField keys ((k, v) :: rs)
      = if keys.contains k = true then some v
        else Metadata.firstField keys rs := by
  unfold Metadata.firstField
  by_cases hck : keys.contains k = true
  · rw [List.find?_cons_of_pos rs (by simpa using hck), if_pos hck]
    rfl
  · rw [List.find?_cons_of_neg rs (by simpa using hck), if_neg hck]

theorem accumTags_cons (k v : PyStr) (rs : List (PyStr × PyStr)) :
    Metadata.accumTags ((k, v) :: rs)
      = if Metadata.tagFieldKeys.contains k = true
        then Metadata.splitTags v ++ Metadata.accumTags rs
        else Metadata.accumTags rs := by
  unfold Metadata.accumTags
  by_cases h : Metadata.tagFieldKeys.contains k = true
  · rw [if_pos h]
    rw [List.filter_cons, if_pos (by simpa using h)]
    simp
  · rw [if_neg h]
    rw [List.filter_cons, if_neg (by simpa using h)]

theorem fmFold_title : ∀ (lines : List PyStr) (fm : Metadata.FrontMatter),
    (lines.foldl Metadata.fmStep fm).title?
      = match fm.title? with
        | some t => some t
        | none =>
            (Metadata.firstField Metadata.titleKeys
              (lines.filterMap Metadata.parseFieldLine)).map Metadata.cleanTitle := by
  intro lines
  induction lines with
  | nil =>
      intro fm
      cases h : fm.title? <;> simp [h, Metadata.firstField]
  | cons ln rest ih =>
      intro fm
      simp only [List.foldl_cons, List.filterMap_cons]
      cases hp : Metadata.parseFieldLine ln with
      | none =>
          dsimp only
          rw [fmStep_none hp, ih]
      | some kv =>
          obtain ⟨k, v⟩ := kv
          dsimp only
          rw [ih, fmStep_title hp, firstField_cons]
          by_cases hg : (Metadata.titleKeys.contains k && fm.title?.isNone) = true
          · obtain ⟨hk, hn⟩ := (Bool.and_eq_true _ _).mp hg
            rw [if_pos hg, Option.isNone_iff_eq_none.mp hn, if_pos hk]
            rfl
          · rw [if_neg hg]
            cases ht : fm.title? with
            | some t => rfl
            | none =>
                have hk : Metadata.titleKeys.contains k = false := by
                  cases hck : Metadata.titleKeys.contains k
                  · rfl
                  · exact absurd (by rw [hck, ht]; rfl) hg
                rw [if_neg (by rw [hk]; exact Bool.false_ne_true)]

theorem fmFold_author : ∀ (lines : List PyStr) (fm : Metadata.FrontMatter),
    (lines.foldl Metadata.fmStep fm).author?
      = match fm.author? with
        | some t => some t
        | none =>
            (Metadata.firstField Metadata.authorKeys
              (lines.filterMap Metadata.parseFieldLine)).map Metadata.cleanAuthor := by
  intro lines
  induction lines with
  | nil =>
      intro fm
      cases h : fm.author? <;> simp [h, Metadata.firstField]
  | cons ln rest ih =>
      intro fm
      simp only [List.foldl_cons, List.filterMap_cons]
      cases hp : Metadata.parseFieldLine ln with
      | none =>
          dsimp only
          rw [fmStep_none hp, ih]
      | some kv =>
          obtain ⟨k, v⟩ := kv
          dsimp only
          rw [ih, fmStep_author hp, firstField_cons]
          by_cases hg : (Metadata.authorKeys.contains k && fm.author?.isNone) = true
          · obtain ⟨hk, hn⟩ := (Bool.and_eq_true _ _).mp hg
            rw [if_pos hg, Option.isNone_iff_eq_none.mp hn, if_pos hk]
            rfl
          · rw [if_neg hg]
            cases ht : fm.author? with
            | some t => rfl
            | none =>
                have hk : Metadata.authorKeys.contains k = false := by
                  cases hck : Metadata.authorKeys.contains k
                  · rfl
                  · exact absurd (by rw [hck, ht]; rfl) hg
                rw [if_neg (by rw [hk]; exact Bool.false_ne_true)]

theorem fmFold_descr : ∀ (lines : List PyStr) (fm : Metadata.FrontMatter),
    (lines.foldl Metadata.fmStep fm).descr?
      = match fm.descr? with
        | some t => some t
        | none =>
            (Metadata.firstField Metadata.descFieldKeys
              (lines.filterMap Metadata.parseFieldLine)).map (List.take 800) := by
  intro lines
  induction lines with
  | nil =>
      intro fm
      cases h : fm.descr? <;> simp [h, Metadata.firstField]
  | cons ln rest ih =>
      intro fm
      simp only [List.foldl_cons, List.filterMap_cons]
      cases hp : Metadata.parseFieldLine ln with
      | none =>
          dsimp only
          rw [fmStep_none hp, ih]
      | some kv =>
          obtain ⟨k, v⟩ := kv
          dsimp only
          rw [ih, fmStep_descr hp, firstField_cons]
          by_cases hg : (Metadata.descFieldKeys.contains k && fm.descr?.isNone) = true
          · obtain ⟨hk, hn⟩ := (Bool.and_eq_true _ _).mp hg
            rw [if_pos hg, Option.isNone_iff_eq_none.mp hn, if_pos hk]
            rfl
          · rw [if_neg hg]
            cases ht : fm.descr? with
            | some t => rfl
            | none =>
                have hk : Metadata.descFieldKeys.contains k = false := by
                  cases hck : Metadata.descFieldKeys.contains k
                  · rfl
                  · exact absurd (by rw [hck, ht]; rfl) hg
                rw [if_neg (by rw [hk]; exact Bool.false_ne_true)]

theorem fmFold_tagsList : ∀ (lines : List PyStr) (fm : Metadata.FrontMatter),
    (lines.foldl Metadata.fmStep fm).tags
      = fm.tags ++ Metadata.accumTags (lines.filterMap Metadata.parseFieldLine) := by
  intro lines
  induction lines with
  | nil =>
      intro fm
      simp [Metadata.accumTags]
  | cons ln rest ih =>
      intro fm
      simp only [List.foldl_cons, List.filterMap_cons]
      cases hp : Metadata.parseFieldLine ln with
      | none =>
          dsimp only
          rw [fmStep_none hp, ih]
      | some kv =>
          obtain ⟨k, v⟩ := kv
          dsimp only
          rw [ih, fmStep_tagsList hp, accumTags_cons]
          by_cases h : Metadata.tagFieldKeys.contains k = true
          · rw [if_pos h, if_pos h, List.append_assoc]
          · rw [if_neg h, if_neg h]

theorem splitTags_nonempty {x raw : PyStr} (hx : x ∈ Metadata.splitTags raw) :
    x.isEmpty = false := by
  unfold Metadata.splitTags at hx
  dsimp only at hx
  split at hx
  · simp at hx
  · have h1 := mem_dedupF ((List.take_sublist 30 _).mem hx)
    have h2 := (List.mem_filter.mp h1).2
    simpa using h2

theorem accumTags_filter_nonempty (rs : List (PyStr × PyStr)) :
    (Metadata.accumTags rs).filter (fun t => !t.isEmpty) = Metadata.accumTags rs := by
  refine List.filter_eq_self.mpr ?_
  intro x hx
  unfold Metadata.accumTags at hx
  obtain ⟨r, _, hxr⟩ := List.mem_flatMap.mp hx
  simpa using splitTags_nonempty hxr

/-- C8: front-matter extraction is first-match-wins for the title, author
and description fields, and accumulate-then-dedup for the tag-like keys.
Against the parsed `(key, value)` record list of the prepared lines, the
title is the `_clean_title` of the first title-keyed record, the author the
`_clean_author` of the first author-keyed record, the description the first
description-keyed record's value capped at 800 characters — later records
for an already-set field are ignored — while the tags are the concatenation,
in line order, of `_split_tags` of every tag-keyed record, deduplicated
first-occurrence-wins and capped at 30. -/
theorem c8_front_matter_first_match_accumulate (text : PyStr) :
    (Metadata.extractTxtFrontMatter text).title?
        = (Metadata.firstField Metadata.titleKeys (Metadata.fmRecords text)).map
            Metadata.cleanTitle ∧
    (Metadata.extractTxtFrontMatter text).author?
        = (Metadata.firstField Metadata.authorKeys (Metadata.fmRecords text)).map
            Metadata.cleanAuthor ∧
    (Metadata.extractTxtFrontMatter text).descr?
        = (Metadata.firstField Metadata.descFieldKeys (Metadata.fmRecords text)).map
            (List.take 800) ∧
    (Metadata.extractTxtFrontMatter text).tags
        = (dedupF (Metadata.accumTags (Metadata.fmRecords text))).take 30 := by
  refine ⟨?_, ?_, ?_, ?_⟩
  · exact fmFold_title (Metadata.prepLines text) {}
  · exact fmFold_author (Metadata.prepLines text) {}
  · exact fmFold_descr (Metadata.prepLines text) {}
  · show (dedupF ((((Metadata.prepLines text).foldl Metadata.fmStep {}).tags).filter
        (fun t => !t.isEmpty))).take 30 = _
    rw [fmFold_tagsList]
    rw [show (({} : Metadata.FrontMatter).tags) = [] from rfl, List.nil_append,
      accumTags_filter_nonempty]
    rfl

/-! ### C6: name-candidate ranking -/

theorem pyStrLt_irrefl : ∀ a : PyStr, AutoTags.pyStrLt a a = false := by
  intro a
  induction a with
  | nil => rfl
  | cons x xs ih =>
      simp only [AutoTags.pyStrLt]
      rw [if_neg (by omega), if_neg (by omega)]
      exact ih

theorem pyStrLt_asymm : ∀ a b : PyStr,
    AutoTags.pyStrLt a b = true → AutoTags.pyStrLt b a = false := by
  intro a
  induction a with
  | nil =>
      intro b _
      cases b with
      | nil => rfl
      | cons y ys => rfl
  | cons x xs ih =>
      intro b hab
      cases b with
      | nil => simp [AutoTags.pyStrLt] at hab
      | cons y ys =>
          simp only [AutoTags.pyStrLt] at hab ⊢
          split at hab
          · next hxy => rw [if_neg (by omega), if_pos (by omega)]
          · next hxy =>
              split at hab
              · simp at hab
              · next hyx =>
                  rw [if_neg (by omega), if_neg (by omega)]
                  exact ih ys hab

theorem pyStrLt_false_trans : ∀ (a b c : PyStr),
    AutoTags.pyStrLt a b = false → AutoTags.pyStrLt b c = false →
    AutoTags.pyStrLt a c = false := by
  intro a
  induction a with
  | nil =>
      intro b c hab hbc
      cases b with
      | nil =>
          cases c with
          | nil => rfl
          | cons z zs => exact hbc
      | cons y ys => simp [AutoTags.pyStrLt] at hab
  | cons x xs ih =>
      intro b c hab hbc
      cases c with
      | nil => rfl
      | cons z zs =>
          cases b with
          | nil => simp [AutoTags.pyStrLt] at hbc
          | cons y ys =>
              simp only [AutoTags.pyStrLt] at hab hbc ⊢
              split at hab
              · simp at hab
              · next hxy =>
                  split at hab
                  · next hyx =>
                      split at hbc
                      · simp at hbc
                      · next hyz =>
                          split at hbc
                          · next hzy =>
                              rw [if_neg (by omega), if_pos (by omega)]
                          · next hzy =>
                              rw [if_neg (by omega), if_pos (by omega)]
                  · next hyx =>
                      split at hbc
                      · simp at hbc
                      · next hyz =>
                          split at hbc
                          · next hzy =>
                              rw [if_neg (by omega), if_pos (by omega)]
                          · next hzy =>
                              rw [if_neg (by omega), if_neg (by omega)]
                              exact ih ys zs hab hbc

instance : IsTotal (Nat × PyStr) AutoTags.candGe := ⟨by
  intro x y
  unfold AutoTags.candGe
  rcases Nat.lt_trichotomy x.1 y.1 with h | h | h
  · exact Or.inr (Or.inl h)
  · cases hl : AutoTags.pyStrLt x.2 y.2
    · exact Or.inl (Or.inr ⟨h, rfl⟩)
    · exact Or.inr (Or.inr ⟨h.symm, pyStrLt_asymm _ _ hl⟩)
  · exact Or.inl (Or.inl h)⟩

instance : IsTrans (Nat × PyStr) AutoTags.candGe := ⟨by
  intro x y z hxy hyz
  unfold AutoTags.candGe at hxy hyz ⊢
  rcases hxy with h1 | ⟨h1, h1s⟩ <;> rcases hyz with h2 | ⟨h2, h2s⟩
  · exact Or.inl (by omega)
  · exact Or.inl (by omega)
  · exact Or.inl (by omega)
  · exact Or.inr ⟨by omega, pyStrLt_false_trans _ _ _ h1s h2s⟩⟩

theorem candGe_lexGeBC {x y : Nat × PyStr} (h : AutoTags.candGe x y) :
    AutoTags.lexGeBC x y := by
  unfold AutoTags.candGe at h
  unfold AutoTags.lexGeBC
  rcases h with h | ⟨h, _⟩
  · omega
  · omega

/-- C6 (amended): the qualifying name candidates are sorted by
`sort(reverse=True)` on the packed key `bc * 100000 + c` and the top 8 are
kept; the resulting order is descending lexicographic on
`(bucket_count, occurrence_count)` — read off the key as
`(key / 100000, key % 100000)` — PROVIDED every occurrence count stays below
100000: under that hypothesis the packed key decodes back to the true
`(bucket_count, occurrence_count)` pair of the candidate.  (Without the
hypothesis the decoding clause fails: an occurrence count of 100000 or more
overflows into the bucket-count digit, see the counterexample.) -/
theorem c6_name_ranking (title text : PyStr)
    (hc : ∀ e ∈ AutoTags.nameStats title text, e.2.1 < 100000) :
    (AutoTags.nameRanked title text).Pairwise AutoTags.lexGeBC ∧
    List.Perm (AutoTags.nameRanked title text) (AutoTags.nameCandidates title text) ∧
    (∀ p ∈ AutoTags.nameRanked title text,
      ∃ e ∈ AutoTags.nameStats title text,
        p.2 = e.2.2 ∧ p.1 / 100000 = e.1 ∧ p.1 % 100000 = e.2.1) ∧
    (AutoTags.nameTags title text).length ≤ 8 := by
  have hperm : List.Perm (AutoTags.nameRanked title text)
      (AutoTags.nameCandidates title text) := by
    unfold AutoTags.nameRanked
    exact List.perm_insertionSort AutoTags.candGe _
  have hsorted : (AutoTags.nameRanked title text).Pairwise AutoTags.candGe := by
    unfold AutoTags.nameRanked
    exact List.sorted_insertionSort AutoTags.candGe _
  refine ⟨hsorted.imp (fun h => candGe_lexGeBC h), hperm, ?_, ?_⟩
  · intro p hp
    have hp2 : p ∈ AutoTags.nameCandidates title text := hperm.mem_iff.mp hp
    unfold AutoTags.nameCandidates at hp2
    obtain ⟨e, he, rfl⟩ := List.mem_map.mp hp2
    have hce := hc e he
    exact ⟨e, he, rfl, by omega, by omega⟩
  · unfold AutoTags.nameTags
    rw [List.length_map]
    exact List.length_take_le 8 _

/-- Witness: the amended ranking theorem applied to a concrete text with two
qualifying names (each with occurrence count 6, far below 100000). -/
theorem c6_name_ranking_witness :
    (∀ e ∈ AutoTags.nameStats [] (pyOfString "月石.月石.月石.月石.月石.月石.山水.山水.山水.山水.山水.山水."), e.2.1 < 100000) ∧
    ((AutoTags.nameRanked [] (pyOfString "月石.月石.月石.月石.月石.月石.山水.山水.山水.山水.山水.山水.")).Pairwise AutoTags.lexGeBC ∧
     List.Perm (AutoTags.nameRanked [] (pyOfString "月石.月石.月石.月石.月石.月石.山水.山水.山水.山水.山水.山水."))
       (AutoTags.nameCandidates [] (pyOfString "月石.月石.月石.月石.月石.月石.山水.山水.山水.山水.山水.山水.")) ∧
     (∀ p ∈ AutoTags.nameRanked [] (pyOfString "月石.月石.月石.月石.月石.月石.山水.山水.山水.山水.山水.山水."),
       ∃ e ∈ AutoTags.nameStats [] (pyOfString "月石.月石.月石.月石.月石.月石.山水.山水.山水.山水.山水.山水."),
         p.2 = e.2.2 ∧ p.1 / 100000 = e.1 ∧ p.1 % 100000 = e.2.1) ∧
     (AutoTags.nameTags [] (pyOfString "月石.月石.月石.月石.月石.月石.山水.山水.山水.山水.山水.山水.")).length ≤ 8) :=
  ⟨by decide, c6_name_ranking [] (pyOfString "月石.月石.月石.月石.月石.月石.山水.山水.山水.山水.山水.山水.") (by decide)⟩

theorem ablock_scan (p : Nat) (A : List (Nat × PyStr)) :
    AutoTags.ablock.foldl (AutoTags.cjkStep 4 1)
        { pos := p, pendStart := 0, pend := [], acc := A }
      = { pos := p + 3, pendStart := 0, pend := [],
          acc := A ++ [(p, AutoTags.tokA)] } := by
  show ([26376, 30707, 46] : PyStr).foldl (AutoTags.cjkStep 4 1)
        { pos := p, pendStart := 0, pend := [], acc := A }
      = { pos := p + 3, pendStart := 0, pend := [],
          acc := A ++ [(p, AutoTags.tokA)] }
  simp only [List.foldl_cons, List.foldl_nil, AutoTags.cjkStep]
  norm_num [isCJK, AutoTags.tokA, pyOfString]
  decide

theorem bblock_scan (p : Nat) (A : List (Nat × PyStr)) :
    AutoTags.bblock.foldl (AutoTags.cjkStep 4 1)
        { pos := p, pendStart := 0, pend := [], acc := A }
      = { pos := p + 3, pendStart := 0, pend := [],
          acc := A ++ [(p, AutoTags.tokB)] } := by
  show ([23665, 27700, 46] : PyStr).foldl (AutoTags.cjkStep 4 1)
        { pos := p, pendStart := 0, pend := [], acc := A }
      = { pos := p + 3, pendStart := 0, pend := [],
          acc := A ++ [(p, AutoTags.tokB)] }
  simp only [List.foldl_cons, List.foldl_nil, AutoTags.cjkStep]
  norm_num [isCJK, AutoTags.tokB, pyOfString]
  decide

theorem filler_scan : ∀ (m p : Nat) (A : List (Nat × PyStr)),
    (AutoTags.fillerDots m).foldl (AutoTags.cjkStep 4 1)
        { pos := p, pendStart := 0, pend := [], acc := A }
      = { pos := p + m, pendStart := 0, pend := [], acc := A } := by
  intro m
  induction m with
  | zero =>
      intro p A
      simp [AutoTags.fillerDots]
  | succ m ih =>
      intro p A
      have hrd : AutoTags.fillerDots (m + 1) = 46 :: AutoTags.fillerDots m := by
        unfold AutoTags.fillerDots
        rw [List.replicate_succ]
      rw [hrd, List.foldl_cons]
      have hstep : AutoTags.cjkStep 4 1
          { pos := p, pendStart := 0, pend := [], acc := A } 46
          = { pos := p + 1, pendStart := 0, pend := [], acc := A } := by
        unfold AutoTags.cjkStep
        norm_num [isCJK]
      rw [hstep, ih]
      have : p + 1 + m = p + (m + 1) := by omega
      rw [this]

theorem repBlock_scan : ∀ (k : Nat) (p : Nat) (A : List (Nat × PyStr)),
    (AutoTags.repBlock k AutoTags.ablock).foldl (AutoTags.cjkStep 4 1)
        { pos := p, pendStart := 0, pend := [], acc := A }
      = { pos := p + 3 * k, pendStart := 0, pend := [],
          acc := A ++ (List.range k).map (fun j => (p + 3 * j, AutoTags.tokA)) } := by
  intro k
  induction k with
  | zero =>
      intro p A
      simp [AutoTags.repBlock]
  | succ k ih =>
      intro p A
      have hrb : AutoTags.repBlock (k + 1) AutoTags.ablock
          = AutoTags.repBlock k AutoTags.ablock ++ AutoTags.ablock := by
        unfold AutoTags.repBlock
        rw [List.replicate_succ', List.flatten_append]
        simp
      rw [hrb, List.foldl_append, ih, ablock_scan]
      rw [List.range_succ, List.map_append, ← List.append_assoc]
      have h1 : p + 3 * k + 3 = p + 3 * (k + 1) := by omega
      rw [h1]
      simp

/-- The six `"山水"` matches of the large input, at their absolute
positions. -/
theorem bigText_scan :
    AutoTags.cjkScan 4 1 AutoTags.bigText
      = (List.range 100007).map (fun j => (3 * j, AutoTags.tokA))
        ++ [(450050, AutoTags.tokB), (450053, AutoTags.tokB),
            (600070, AutoTags.tokB), (600073, AutoTags.tokB),
            (750090, AutoTags.tokB), (750093, AutoTags.tokB)] := by
  have hfold : AutoTags.bigText.foldl (AutoTags.cjkStep 4 1)
      { pos := 0, pendStart := 0, pend := [], acc := [] }
      = { pos := 900100, pendStart := 0, pend := [],
          acc := (List.range 100007).map (fun j => (3 * j, AutoTags.tokA))
            ++ [(450050, AutoTags.tokB), (450053, AutoTags.tokB),
                (600070, AutoTags.tokB), (600073, AutoTags.tokB),
                (750090, AutoTags.tokB), (750093, AutoTags.tokB)] } := by
    unfold AutoTags.bigText
    simp only [List.foldl_append]
    rw [repBlock_scan, filler_scan, bblock_scan, bblock_scan, filler_scan,
      bblock_scan, bblock_scan, filler_scan, bblock_scan, bblock_scan, filler_scan]
    norm_num [List.append_assoc]
  unfold AutoTags.cjkScan
  rw [hfold]
  dsimp only
  rw [if_neg (by simp)]

theorem repBlock_ablock_length : ∀ k, (AutoTags.repBlock k AutoTags.ablock).length = 3 * k := by
  intro k
  induction k with
  | zero => rfl
  | succ k ih =>
      rw [show AutoTags.repBlock (k + 1) AutoTags.ablock
          = AutoTags.repBlock k AutoTags.ablock ++ AutoTags.ablock from by
        unfold AutoTags.repBlock
        rw [List.replicate_succ', List.flatten_append]
        simp]
      rw [List.length_append, ih, show AutoTags.ablock.length = 3 from rfl]
      omega

theorem bigText_length : AutoTags.bigText.length = 900100 := by
  have hfd : ∀ m, (AutoTags.fillerDots m).length = m := by
    intro m
    unfold AutoTags.fillerDots
    exact List.length_replicate m 46
  unfold AutoTags.bigText
  simp only [List.length_append, repBlock_ablock_length, hfd,
    show AutoTags.bblock.length = 3 from rfl]

theorem bucketOf_a (k : Nat) (hk : k ≤ 100006) :
    AutoTags.bucketOf 900100 (3 * k) = if k ≤ 50005 then 0 else 1 := by
  unfold AutoTags.bucketOf
  split
  · next h => omega
  · next h => omega

theorem nameStep_a (k : Nat) (hk1 : 1 ≤ k) (hk : k ≤ 100006) :
    AutoTags.nameStep [] 900100
        { counter := [(AutoTags.tokA, k)],
          mask := [(AutoTags.tokA, if k ≤ 50006 then 1 else 3)] }
        (3 * k, AutoTags.tokA)
      = { counter := [(AutoTags.tokA, k + 1)],
          mask := [(AutoTags.tokA, if k + 1 ≤ 50006 then 1 else 3)] } := by
  unfold AutoTags.nameStep
  dsimp only
  rw [show AutoTags.normalizeTag AutoTags.tokA = AutoTags.tokA from by decide]
  rw [if_neg (by decide), if_neg (by decide), if_neg (by decide)]
  rw [show AutoTags.bumpCounter [(AutoTags.tokA, k)] AutoTags.tokA
      = [(AutoTags.tokA, k + 1)] from by
    unfold AutoTags.bumpCounter
    rw [if_pos (by decide)]]
  rw [bucketOf_a k hk]
  unfold AutoTags.setMaskBit
  rw [if_pos (by decide)]
  by_cases h5 : k ≤ 50005
  · rw [if_pos (by omega : k ≤ 50006), if_pos h5, if_pos (by omega : k + 1 ≤ 50006)]
    rw [show (1 ||| 1 <<< 0 : Nat) = 1 from by decide]
  · by_cases h6 : k ≤ 50006
    · rw [if_pos h6, if_neg h5, if_neg (by omega : ¬ k + 1 ≤ 50006)]
      rw [show (1 ||| 1 <<< 1 : Nat) = 3 from by decide]
    · rw [if_neg h6, if_neg h5, if_neg (by omega : ¬ k + 1 ≤ 50006)]
      rw [show (3 ||| 1 <<< 1 : Nat) = 3 from by decide]

theorem aRun_scan : ∀ (k : Nat), 1 ≤ k → k ≤ 100007 →
    ((List.range k).map (fun j => (3 * j, AutoTags.tokA))).foldl
        (AutoTags.nameStep [] 900100) {}
      = { counter := [(AutoTags.tokA, k)],
          mask := [(AutoTags.tokA, if k ≤ 50006 then 1 else 3)] } := by
  intro k
  induction k with
  | zero => intro h _; exact absurd h (by decide)
  | succ k ih =>
      intro _ hk1
      by_cases hk0 : k = 0
      · subst hk0
        decide
      · have hk : 1 ≤ k := Nat.one_le_iff_ne_zero.mpr hk0
        rw [List.range_succ, List.map_append, List.foldl_append, ih hk (by omega)]
        rw [show List.map (fun j => (3 * j, AutoTags.tokA)) [k]
            = [(3 * k, AutoTags.tokA)] from rfl]
        rw [List.foldl_cons, List.foldl_nil]
        exact nameStep_a k hk (by omega)

theorem bigText_nameScan :
    AutoTags.nameScan [] AutoTags.bigText
      = { counter := [(AutoTags.tokA, 100007), (AutoTags.tokB, 6)],
          mask := [(AutoTags.tokA, 3), (AutoTags.tokB, 56)] } := by
  unfold AutoTags.nameScan
  rw [bigText_scan, bigText_length]
  rw [show max 1 900100 = 900100 from by norm_num]
  rw [List.foldl_append, aRun_scan 100007 (by norm_num) (by norm_num)]
  rw [show (if 100007 ≤ 50006 then 1 else 3 : Nat) = 3 from by norm_num]
  decide

/-- C6 (counterexample): the packed key `bc * 100000 + c` does NOT rank by
descending `(bucket_count, occurrence_count)` once an occurrence count
reaches 100000.  On this 900100-character text the name `"月石"` qualifies
with bucket count 2 and occurrence count 100007 (key 300007) while `"山水"`
qualifies with the strictly larger bucket count 3 and occurrence count 6
(key 300006); the claim says `"山水"` must rank above `"月石"`, but the sort
on packed keys puts `"月石"` first. -/
theorem c6_counterexample :
    AutoTags.nameStats [] AutoTags.bigText
      = [(2, 100007, AutoTags.tokA), (3, 6, AutoTags.tokB)] ∧
    AutoTags.nameTags [] AutoTags.bigText = [AutoTags.tokA, AutoTags.tokB] := by
  have hstats : AutoTags.nameStats [] AutoTags.bigText
      = [(2, 100007, AutoTags.tokA), (3, 6, AutoTags.tokB)] := by
    unfold AutoTags.nameStats
    rw [bigText_nameScan]
    decide
  refine ⟨hstats, ?_⟩
  unfold AutoTags.nameTags AutoTags.nameRanked AutoTags.nameCandidates
  rw [hstats]
  decide

end BookBot
